import Mathlib

/-!
Verification of the `rebranch` Git workflow tool.

The development shallowly embeds the tool's core logic:

* Go strings are modelled as `GoStr := List Char`; the Go standard-library
  helpers the code uses (`strings.TrimSpace`, `strings.Split` on `"\n"`,
  `strings.Join` with `"\n"`, `strings.Fields`, `strings.HasPrefix`) are
  translated as executable list functions below.  `goIsSpace` covers the
  ASCII whitespace characters recognised by `unicode.IsSpace`; the extra
  non-ASCII code points do not occur in any input considered here.
* The selection-format codec (`CreateInteractiveFile` / `ParseInteractiveFile`
  from editor.go) is embedded at the level of file contents: rendering
  produces the exact string written to the pick file, parsing consumes the
  exact string read back.
* The commit-range resolver (`Git.GetCommitsBetween` / `Git.isAncestor` from
  git.go) is embedded over a finite commit DAG: commits are numbered in
  creation order, so every parent of a commit has a smaller index.  The
  go-git log iteration from `head` (default order of `Repository.Log`) is
  modelled as a DFS pre-order over the commit graph, first parent first,
  with a shared seen set (`dfsVisit`); the go-git receiver convention of
  `IsAncestor` ("the receiver is an ancestor of the argument", reflexive)
  is captured by `gitIsAncestor`.
* The workflow orchestrator (rebranch.go) and the validators (validation.go)
  are embedded as deterministic functions over an `Oracle` fixing the
  outcomes of the external git backend, the editor, and the state store, a
  `World` holding the persisted operation record, and a trace of the
  successfully executed git effects and record persists.
-/

set_option maxRecDepth 4000

namespace Rebranch

/-- Go strings, modelled as lists of characters. -/
abbrev GoStr := List Char

/-- ASCII whitespace as recognised by Go's `unicode.IsSpace`. -/
def goIsSpace (c : Char) : Bool :=
  c == ' ' || c == '\t' || c == '\n' || c == '\x0b' || c == '\x0c' || c == '\r'

/-- Go `strings.TrimSpace`: drop whitespace from both ends. -/
def goTrim (s : GoStr) : GoStr :=
  ((s.dropWhile goIsSpace).reverse.dropWhile goIsSpace).reverse

/-- Go `strings.Split (· , "\n")`: split at every newline; a trailing
newline yields a trailing empty line. -/
def splitNl : GoStr → List GoStr
  | [] => [[]]
  | c :: rest =>
    if c = '\n' then [] :: splitNl rest
    else
      match splitNl rest with
      | [] => [[c]]
      | l :: ls => (c :: l) :: ls

/-- Go `strings.Join (· , "\n")`. -/
def joinNl : List GoStr → GoStr
  | [] => []
  | [l] => l
  | l :: ls => l ++ '\n' :: joinNl ls

/-- Accumulator worker for `goFields`; `cur` holds the current word reversed. -/
def goFieldsAux : GoStr → GoStr → List GoStr
  | cur, [] => if cur.isEmpty then [] else [cur.reverse]
  | cur, c :: rest =>
    if goIsSpace c then
      if cur.isEmpty then goFieldsAux [] rest
      else cur.reverse :: goFieldsAux [] rest
    else goFieldsAux (c :: cur) rest

/-- Go `strings.Fields`: the maximal whitespace-free words of a string. -/
def goFields (s : GoStr) : List GoStr := goFieldsAux [] s

/-- First line of a string (everything before the first newline). -/
def firstLine (s : GoStr) : GoStr := s.takeWhile (fun c => c ≠ '\n')

/-- CommitInfo from rebranch.go: a commit in the interactive list. -/
structure CommitInfo where
  SHA : GoStr
  Message : GoStr
  Action : GoStr
  deriving DecidableEq

/-- RebranchState from rebranch.go: the persisted operation record. -/
structure RebranchState where
  SourceBranch : GoStr
  BaseBranch : GoStr
  TempBranch : GoStr
  CommitsToApply : List CommitInfo
  CurrentCommitIdx : Nat
  Stage : GoStr
  deriving DecidableEq

/-- The 7-character short form of a commit identifier
(`shortSHA := commit.SHA; if len > 7 { shortSHA = shortSHA[:7] }`). -/
def shortSha (s : GoStr) : GoStr := if s.length > 7 then s.take 7 else s

/-- The fixed comment header of the interactive pick file, plus the blank
separator line, exactly as written by `CreateInteractiveFile`. -/
def headerLines : List GoStr :=
  [ "# Interactive rebranch - Edit the list of commits to apply".toList,
    "# Commands:".toList,
    "#  pick, p = apply this commit".toList,
    "#  drop, d = skip this commit".toList,
    "#".toList,
    "# Lines starting with # are ignored.".toList,
    [] ]

/-- One rendered commit line: `pick <shortSHA> <message>`. -/
def renderLine (c : CommitInfo) : GoStr :=
  "pick ".toList ++ shortSha c.SHA ++ ' ' :: c.Message

/-- CreateInteractiveFile from editor.go: the full contents of the pick
file (header, then one line per commit, newline-terminated). -/
def createInteractiveFile (commits : List CommitInfo) : GoStr :=
  joinNl (headerLines ++ commits.map renderLine) ++ ['\n']

/-- Errors of `ParseInteractiveFile`, with the data the Go error messages
carry. -/
inductive ParseErr where
  | invalidLine (lineNum : Nat) (line : GoStr)
  | invalidAction (action : GoStr) (lineNum : Nat)
  | unknownCommit (sha : GoStr) (lineNum : Nat)
  | emptySelection
  deriving DecidableEq

/-- Normalisation of an action token (`pick`/`p` and `drop`/`d`); `none`
for an unrecognised token. -/
def normalizeAction (a : GoStr) : Option GoStr :=
  if a = "pick".toList ∨ a = "p".toList then some "pick".toList
  else if a = "drop".toList ∨ a = "d".toList then some "drop".toList
  else none

/-- Lookup in the short-SHA map built from `originalCommits`.  Go builds a
`map[string]CommitInfo` by iterating the list, so on duplicate short SHAs
the last entry wins. -/
def lookupSha (orig : List CommitInfo) (key : GoStr) : Option CommitInfo :=
  (orig.filter (fun c => decide (shortSha c.SHA = key))).getLast?

/-- The line loop of `ParseInteractiveFile`: skip blank and `#` lines,
split the rest into fields, normalise the action, resolve the short SHA
against `orig`, and rebuild the entry from the original commit. -/
def parseLines (orig : List CommitInfo) : List GoStr → Nat → Except ParseErr (List CommitInfo)
  | [], _ => .ok []
  | line :: rest, lineNum =>
    if goTrim line = [] ∨ (goTrim line).head? = some '#' then parseLines orig rest (lineNum + 1)
    else
      match goFields (goTrim line) with
      | a :: s :: _ =>
        match normalizeAction a with
        | none => .error (.invalidAction a lineNum)
        | some act =>
          match lookupSha orig s with
          | none => .error (.unknownCommit s lineNum)
          | some c =>
            match parseLines orig rest (lineNum + 1) with
            | .error e => .error e
            | .ok cs => .ok (⟨c.SHA, c.Message, act⟩ :: cs)
      | _ => .error (.invalidLine lineNum (goTrim line))

/-- ParseInteractiveFile from editor.go, at the level of file contents:
split into lines, run the line loop (line numbers start at 1), and reject
an empty selection. -/
def parseInteractiveFile (content : GoStr) (orig : List CommitInfo) :
    Except ParseErr (List CommitInfo) :=
  match parseLines orig (splitNl content) 1 with
  | .ok [] => .error .emptySelection
  | r => r

end Rebranch

namespace Rebranch

/-- A finite commit DAG.  Commits are numbered in creation order, so in a
well-formed repository every parent of commit `c` has an index below `c`
(`Repo.Wf`).  `parents` is indexed by commit; `shas` and `msgs` give the
hash string and the full commit message of each commit. -/
structure Repo where
  parents : List (List Nat)
  shas : Nat → GoStr
  msgs : Nat → GoStr

/-- Parent list of a commit (empty beyond the recorded commits). -/
def Repo.par (r : Repo) (c : Nat) : List Nat := r.parents.getD c []

/-- Well-formedness: parents precede their children in creation order. -/
def Repo.Wf (r : Repo) : Prop := ∀ i, ∀ p ∈ r.par i, p < i

/-- Executable well-formedness check. -/
def Repo.wfB (r : Repo) : Bool :=
  (List.range r.parents.length).all (fun i => (r.par i).all (fun p => decide (p < i)))

theorem Repo.wfB_iff (r : Repo) : r.wfB = true ↔ r.Wf := by
  constructor
  · intro h i p hp
    by_cases hi : i < r.parents.length
    · have := (List.all_eq_true.mp h i (List.mem_range.mpr hi))
      exact of_decide_eq_true (List.all_eq_true.mp this p hp)
    · exfalso
      have : r.par i = [] := by
        unfold Repo.par
        simp only [List.getD_eq_getElem?_getD]
        rw [List.getElem?_eq_none (by omega)]
        rfl
      rw [this] at hp
      exact List.not_mem_nil p hp
  · intro h
    refine List.all_eq_true.mpr (fun i _ => List.all_eq_true.mpr (fun p hp => ?_))
    exact decide_eq_true (h i p hp)

instance (r : Repo) : Decidable r.Wf := decidable_of_iff (r.wfB = true) (Repo.wfB_iff r)

/-- Fuel-bounded reflexive ancestry: `a` is an ancestor of `d` when `a = d`
or `a` is an ancestor of some parent of `d`. -/
def ancestorFuel (r : Repo) (a : Nat) : Nat → Nat → Bool
  | 0, _ => false
  | fuel + 1, d => a == d || (r.par d).any (fun p => ancestorFuel r a fuel p)

/-- Reflexive ancestry of the commit DAG.  In a well-formed repository every
ancestor chain of `d` descends strictly, so fuel `d + 1` is exhaustive
(`ancestorB_iff_reaches`). -/
def ancestorB (r : Repo) (a d : Nat) : Bool := ancestorFuel r a (d + 1) d

/-- Reflexive transitive ancestry as an inductive relation: `Reaches r a d`
means `d`'s history traces back to `a`. -/
inductive Reaches (r : Repo) : Nat → Nat → Prop
  | refl (d : Nat) : Reaches r d d
  | step {a p d : Nat} : p ∈ r.par d → Reaches r a p → Reaches r a d

theorem ancestorFuel_sound (r : Repo) (a : Nat) :
    ∀ fuel d, ancestorFuel r a fuel d = true → Reaches r a d := by
  intro fuel
  induction fuel with
  | zero => intro d h; simp [ancestorFuel] at h
  | succ f ih =>
    intro d h
    rcases Bool.or_eq_true_iff.mp h with h | h
    · have := eq_of_beq h
      subst this
      exact Reaches.refl a
    · rcases List.any_eq_true.mp h with ⟨p, hp, hf⟩
      exact Reaches.step hp (ih p hf)

theorem ancestorFuel_complete (r : Repo) (hwf : r.Wf) {a d : Nat} (h : Reaches r a d) :
    ∀ fuel, d < fuel → ancestorFuel r a fuel d = true := by
  induction h with
  | refl =>
    intro fuel hf
    cases fuel with
    | zero => omega
    | succ f => simp [ancestorFuel]
  | step hp _ ih =>
    intro fuel hf
    cases fuel with
    | zero => omega
    | succ f =>
      have hpd := hwf _ _ hp
      simp only [ancestorFuel, Bool.or_eq_true_iff, List.any_eq_true]
      exact Or.inr ⟨_, hp, ih f (by omega)⟩

theorem ancestorB_iff_reaches (r : Repo) (hwf : r.Wf) (a d : Nat) :
    ancestorB r a d = true ↔ Reaches r a d :=
  ⟨ancestorFuel_sound r a (d + 1) d,
   fun h => ancestorFuel_complete r hwf h (d + 1) (Nat.lt_succ_self d)⟩

theorem ancestorB_refl (r : Repo) (d : Nat) : ancestorB r d d = true := by
  simp [ancestorB, ancestorFuel]

theorem reaches_le (r : Repo) (hwf : r.Wf) {a d : Nat} (h : Reaches r a d) : a ≤ d := by
  induction h with
  | refl => exact Nat.le_refl _
  | step hp _ ih => exact Nat.le_of_lt (Nat.lt_of_le_of_lt ih (hwf _ _ hp))

/-- The go-git primitive `descendant.IsAncestor(ancestor)` with the
short-circuit equality test in front, exactly as `Git.isAncestor` composes
them in git.go: the call answers whether `descendant` is an ancestor of
`ancestor` (go-git's receiver is the candidate ancestor), so the composite
tests whether the second argument reaches back to nothing of the first —
effectively `ancestorB r descendant ancestor`. -/
def gitIsAncestor (r : Repo) (ancestor descendant : Nat) : Bool :=
  if ancestor = descendant then true else ancestorB r descendant ancestor

theorem gitIsAncestor_eq (r : Repo) (a d : Nat) : gitIsAncestor r a d = ancestorB r d a := by
  unfold gitIsAncestor
  by_cases h : a = d
  · subst h; rw [if_pos rfl, ancestorB_refl]
  · rw [if_neg h]

/-- One step of go-git's `CommitPreorderIter`, the default iteration order
of `Repository.Log`: skip the commit if it is already in the seen list,
otherwise emit it (append to the seen list, which doubles as the output in
emission order) and walk its parents in order — first parent first — the
seen list shared across the whole walk, so each commit is emitted at most
once.  The fuel only bounds the recursion depth: every recursive call moves
to a parent, and in a well-formed repository parents strictly precede their
children, so starting fuel `head + 1` never runs out. -/
def dfsVisit (r : Repo) : Nat → Nat → List Nat → List Nat
  | 0, _, visited => visited
  | fuel + 1, c, visited =>
    if c ∈ visited then visited
    else (r.par c).foldl (fun v p => dfsVisit r fuel p v) (visited ++ [c])

/-- The go-git `Log` iteration from `head`: DFS pre-order over the commit
graph starting at `head`, first parent first (`head` itself comes first;
a commit reached along several paths appears only at its first visit). -/
def logList (r : Repo) (head : Nat) : List Nat :=
  dfsVisit r (head + 1) head []

/-- The commit entry built for one log commit: full hash, whole message
trimmed of surrounding whitespace, action `pick`. -/
def mkPick (r : Repo) (c : Nat) : CommitInfo :=
  ⟨r.shas c, goTrim (r.msgs c), "pick".toList⟩

/-- Git.GetCommitsBetween from git.go: if `base` and `head` resolve to the
same commit return the empty list; otherwise walk the log from `head`,
skip the base commit, test every candidate with `Git.isAncestor`, and
prepend the kept entries, so the result is the reverse of the log
traversal order. -/
def getCommitsBetween (r : Repo) (base head : Nat) : List CommitInfo :=
  if base = head then []
  else
    (logList r head).foldl
      (fun commits c =>
        if c = base then commits
        else if gitIsAncestor r base c then commits
        else mkPick r c :: commits)
      []

end Rebranch

namespace Rebranch

instance {ε α : Type _} [DecidableEq ε] [DecidableEq α] : DecidableEq (Except ε α) := fun x y =>
  match x, y with
  | .ok a, .ok b =>
    if h : a = b then .isTrue (by rw [h]) else .isFalse (fun he => by cases he; exact h rfl)
  | .error a, .error b =>
    if h : a = b then .isTrue (by rw [h]) else .isFalse (fun he => by cases he; exact h rfl)
  | .ok _, .error _ => .isFalse (fun he => by cases he)
  | .error _, .ok _ => .isFalse (fun he => by cases he)

/-- Reference-mutating git operations the orchestrator performs, recorded
in the trace when (and only when) the underlying git command succeeds. -/
inductive GitEff where
  | createBranch (name base : GoStr)
  | checkout (name : GoStr)
  | cherryPick (sha : GoStr)
  | deleteBranch (name : GoStr)
  | renameBranch (oldName newName : GoStr)
  deriving DecidableEq

/-- Trace events: successful git effects and successful record persists. -/
inductive Ev where
  | git (e : GitEff)
  | save (st : RebranchState)
  deriving DecidableEq

/-- The persistent store: `record = some st` exactly when the state file
`.git/REBRANCH_STATE` exists and holds `st`. -/
structure World where
  record : Option RebranchState
  deriving DecidableEq

/-- Outcomes of the external collaborators for one command invocation:
the git backend's answers and success/failure of each operation, the
editor's effect on the pick-file contents, and success of each store write.
The orchestrator is a deterministic function of this oracle. -/
structure Oracle where
  validRepo : Bool
  foreignOp : Option GoStr
  clean : Bool
  branchExists : GoStr → Bool
  currentBranch : Option GoStr
  commitsBetween : GoStr → GoStr → List CommitInfo
  edit : GoStr → GoStr
  editOk : Bool
  tempName : GoStr
  createOk : GoStr → Bool
  checkoutOk : GoStr → Bool
  cherryPickOk : GoStr → Bool
  deleteOk : GoStr → Bool
  renameOk : GoStr → GoStr → Bool
  saveOk : RebranchState → Bool
  clearOk : Bool

/-- Errors surfaced by the orchestrator and the validators, tagged with the
data the corresponding Go error messages carry. -/
inductive RbErr where
  | invalidRepo
  | alreadyInProgress
  | foreignInProgress (kind : GoStr)
  | notClean
  | baseNotFound (base : GoStr)
  | headUnresolved
  | sameBranch (name : GoStr)
  | noCommits
  | editorFailed
  | pickFileRejected (e : ParseErr)
  | createFailed (name : GoStr)
  | checkoutFailed (name : GoStr)
  | conflict (shortId : GoStr)
  | saveFailed
  | conflictSaveFailed
  | noOperation
  | wrongStageContinue (stage : GoStr)
  | wrongStageFinish (stage : GoStr)
  | notOnTempBranch (expected actual : GoStr)
  | notCleanContinue
  | notCleanFinish
  | deleteFailed (name : GoStr)
  | renameFailed (oldName newName : GoStr)
  | clearFailed
  deriving DecidableEq

/-- Result, final store contents, and trace of one command invocation. -/
structure Outcome where
  result : Except RbErr Unit
  world : World
  trace : List Ev
  deriving DecidableEq

/-- validateStart from validation.go: repository validity, no existing
record, no foreign in-progress operation, clean working tree, base branch
exists, current branch resolvable and different from base — in that order. -/
def validateStart (base : GoStr) (o : Oracle) (w : World) : Option RbErr :=
  if ¬ o.validRepo then some .invalidRepo
  else if w.record.isSome then some .alreadyInProgress
  else
    match o.foreignOp with
    | some kind => some (.foreignInProgress kind)
    | none =>
      if ¬ o.clean then some .notClean
      else if ¬ o.branchExists base then some (.baseNotFound base)
      else
        match o.currentBranch with
        | none => some .headUnresolved
        | some cur => if cur = base then some (.sameBranch cur) else none

/-- validateContinue from validation.go: repository validity, record
exists and loads, stage is `conflicts`, working tree clean. -/
def validateContinue (o : Oracle) (w : World) : Option RbErr :=
  if ¬ o.validRepo then some .invalidRepo
  else
    match w.record with
    | none => some .noOperation
    | some r =>
      if r.Stage ≠ "conflicts".toList then some (.wrongStageContinue r.Stage)
      else if ¬ o.clean then some .notCleanContinue
      else none

/-- validateFinish from validation.go: repository validity, record exists
and loads, stage is `done`, current branch is the temp branch, working
tree clean. -/
def validateFinish (o : Oracle) (w : World) : Option RbErr :=
  if ¬ o.validRepo then some .invalidRepo
  else
    match w.record with
    | none => some .noOperation
    | some r =>
      if r.Stage ≠ "done".toList then some (.wrongStageFinish r.Stage)
      else
        match o.currentBranch with
        | none => some .headUnresolved
        | some cur =>
          if cur ≠ r.TempBranch then some (.notOnTempBranch r.TempBranch cur)
          else if ¬ o.clean then some .notCleanFinish
          else none

/-- validateAbort from validation.go: repository validity and record
existence, nothing else. -/
def validateAbort (o : Oracle) (w : World) : Option RbErr :=
  if ¬ o.validRepo then some .invalidRepo
  else if w.record.isNone then some .noOperation
  else none

/-- FileStore.ClearState from store.go: succeed immediately when no state
file exists, otherwise remove it (which can fail). -/
def clearState (o : Oracle) (w : World) : Except RbErr World :=
  if w.record.isNone then .ok w
  else if o.clearOk then .ok ⟨none⟩
  else .error .clearFailed

/-- The loop body of ApplyCherryPicks from rebranch.go, iterating the
remaining entries (`l` is the suffix of `st.CommitsToApply` from index
`i`).  `drop` entries are passed over; an applied entry is followed by a
persist with the cursor set to the just-processed index; a failed
cherry-pick persists the cursor at the failing index with stage
`conflicts` and then surfaces the conflict error naming the commit's
7-character short id; a failed persist aborts with a save error.  On loop
completion the stage is set to `done` and persisted. -/
def applyGo (o : Oracle) (w : World) (st : RebranchState) : List CommitInfo → Nat → Outcome
  | [], _ =>
    let st2 := {st with Stage := "done".toList}
    if o.saveOk st2 then ⟨.ok (), ⟨some st2⟩, [.save st2]⟩
    else ⟨.error .saveFailed, w, []⟩
  | c :: rest, i =>
    if c.Action = "drop".toList then applyGo o w st rest (i + 1)
    else if o.cherryPickOk c.SHA then
      if o.saveOk {st with CurrentCommitIdx := i} then
        ⟨(applyGo o ⟨some {st with CurrentCommitIdx := i}⟩
            {st with CurrentCommitIdx := i} rest (i + 1)).result,
         (applyGo o ⟨some {st with CurrentCommitIdx := i}⟩
            {st with CurrentCommitIdx := i} rest (i + 1)).world,
         .git (.cherryPick c.SHA) :: .save {st with CurrentCommitIdx := i} ::
           (applyGo o ⟨some {st with CurrentCommitIdx := i}⟩
              {st with CurrentCommitIdx := i} rest (i + 1)).trace⟩
      else ⟨.error .saveFailed, w, [.git (.cherryPick c.SHA)]⟩
    else
      if o.saveOk {st with CurrentCommitIdx := i, Stage := "conflicts".toList} then
        ⟨.error (.conflict (c.SHA.take 7)),
         ⟨some {st with CurrentCommitIdx := i, Stage := "conflicts".toList}⟩,
         [.save {st with CurrentCommitIdx := i, Stage := "conflicts".toList}]⟩
      else ⟨.error .conflictSaveFailed, w, []⟩

/-- ApplyCherryPicks from rebranch.go: run the loop from the record's
current index. -/
def applyCherryPicks (o : Oracle) (w : World) (st : RebranchState) : Outcome :=
  applyGo o w st (st.CommitsToApply.drop st.CurrentCommitIdx) st.CurrentCommitIdx

/-- startRebranch from rebranch.go: validate, resolve the current branch
and the commit range, reject an empty range, render the pick file, run the
editor, parse the edited file, create and check out the temp branch, save
the initial record (stage `picking`, cursor 0), and enter the apply loop. -/
def startRebranch (base : GoStr) (o : Oracle) (w : World) : Outcome :=
  match validateStart base o w with
  | some e => ⟨.error e, w, []⟩
  | none =>
    match o.currentBranch with
    | none => ⟨.error .headUnresolved, w, []⟩
    | some sourceBranch =>
      if (o.commitsBetween base sourceBranch).isEmpty then ⟨.error .noCommits, w, []⟩
      else if ¬ o.editOk then ⟨.error .editorFailed, w, []⟩
      else
        match parseInteractiveFile
            (o.edit (createInteractiveFile (o.commitsBetween base sourceBranch)))
            (o.commitsBetween base sourceBranch) with
        | .error e => ⟨.error (.pickFileRejected e), w, []⟩
        | .ok selectedCommits =>
          if ¬ o.createOk o.tempName then ⟨.error (.createFailed o.tempName), w, []⟩
          else if ¬ o.checkoutOk o.tempName then
            ⟨.error (.checkoutFailed o.tempName), w, [.git (.createBranch o.tempName base)]⟩
          else if ¬ o.saveOk ⟨sourceBranch, base, o.tempName, selectedCommits, 0,
              "picking".toList⟩ then
            ⟨.error .saveFailed, w,
              [.git (.createBranch o.tempName base), .git (.checkout o.tempName)]⟩
          else
            ⟨(applyCherryPicks o
                ⟨some ⟨sourceBranch, base, o.tempName, selectedCommits, 0, "picking".toList⟩⟩
                ⟨sourceBranch, base, o.tempName, selectedCommits, 0, "picking".toList⟩).result,
             (applyCherryPicks o
                ⟨some ⟨sourceBranch, base, o.tempName, selectedCommits, 0, "picking".toList⟩⟩
                ⟨sourceBranch, base, o.tempName, selectedCommits, 0, "picking".toList⟩).world,
             .git (.createBranch o.tempName base) :: .git (.checkout o.tempName) ::
               .save ⟨sourceBranch, base, o.tempName, selectedCommits, 0, "picking".toList⟩ ::
               (applyCherryPicks o
                  ⟨some ⟨sourceBranch, base, o.tempName, selectedCommits, 0, "picking".toList⟩⟩
                  ⟨sourceBranch, base, o.tempName, selectedCommits, 0, "picking".toList⟩).trace⟩

/-- continueRebranch from rebranch.go: validate, reload the record,
increment the cursor past the entry the user resolved, set stage back to
`picking`, and resume the apply loop (the incremented record is not
persisted before the loop persists it). -/
def continueRebranch (o : Oracle) (w : World) : Outcome :=
  match validateContinue o w with
  | some e => ⟨.error e, w, []⟩
  | none =>
    match w.record with
    | none => ⟨.error .noOperation, w, []⟩
    | some r =>
      applyCherryPicks o w
        {r with CurrentCommitIdx := r.CurrentCommitIdx + 1, Stage := "picking".toList}

/-- finishRebranch from rebranch.go: validate, delete the source branch,
rename the temp branch onto the source branch's name, and clear the
record. -/
def finishRebranch (o : Oracle) (w : World) : Outcome :=
  match validateFinish o w with
  | some e => ⟨.error e, w, []⟩
  | none =>
    match w.record with
    | none => ⟨.error .noOperation, w, []⟩
    | some r =>
      if ¬ o.deleteOk r.SourceBranch then ⟨.error (.deleteFailed r.SourceBranch), w, []⟩
      else if ¬ o.renameOk r.TempBranch r.SourceBranch then
        ⟨.error (.renameFailed r.TempBranch r.SourceBranch), w,
          [.git (.deleteBranch r.SourceBranch)]⟩
      else
        let tr := [Ev.git (.deleteBranch r.SourceBranch),
                   Ev.git (.renameBranch r.TempBranch r.SourceBranch)]
        match clearState o w with
        | .error e => ⟨.error e, w, tr⟩
        | .ok w' => ⟨.ok (), w', tr⟩

/-- abortRebranch from rebranch.go: validate, check out the source branch,
delete the temp branch best-effort (a failure is only a warning), and
clear the record. -/
def abortRebranch (o : Oracle) (w : World) : Outcome :=
  match validateAbort o w with
  | some e => ⟨.error e, w, []⟩
  | none =>
    match w.record with
    | none => ⟨.error .noOperation, w, []⟩
    | some r =>
      if ¬ o.checkoutOk r.SourceBranch then ⟨.error (.checkoutFailed r.SourceBranch), w, []⟩
      else
        let tr :=
          Ev.git (.checkout r.SourceBranch) ::
            (if o.deleteOk r.TempBranch then [Ev.git (.deleteBranch r.TempBranch)] else [])
        match clearState o w with
        | .error e => ⟨.error e, w, tr⟩
        | .ok w' => ⟨.ok (), w', tr⟩

/-- Git effects of a trace. -/
def gitTrace (tr : List Ev) : List GitEff :=
  tr.filterMap (fun e => match e with | .git g => some g | .save _ => none)

/-- Persisted records of a trace, in order. -/
def savedStates (tr : List Ev) : List RebranchState :=
  tr.filterMap (fun e => match e with | .save st => some st | .git _ => none)

/-- Cursor values of the persisted records of a trace, in order. -/
def savedCursors (tr : List Ev) : List Nat :=
  (savedStates tr).map RebranchState.CurrentCommitIdx

/-- Abstract git reference state: branch tips (by a numeric tip id), the
currently checked-out branch, and a supply of fresh tip ids. -/
structure GitSt where
  branches : GoStr → Option Nat
  head : GoStr
  fresh : Nat

/-- Semantics of one successful git effect on the reference state: branch
creation points the new name at the base's tip, checkout moves `head`,
cherry-pick advances the currently checked-out branch to a fresh tip,
deletion removes the name, and rename moves the old name's tip to the new
name. -/
def GitEff.apply (g : GitSt) : GitEff → GitSt
  | .createBranch n b => {g with branches := fun x => if x = n then g.branches b else g.branches x}
  | .checkout n => {g with head := n}
  | .cherryPick _ =>
    {g with branches := fun x => if x = g.head then some g.fresh else g.branches x,
            fresh := g.fresh + 1}
  | .deleteBranch n => {g with branches := fun x => if x = n then none else g.branches x}
  | .renameBranch a b =>
    {g with branches := fun x => if x = b then g.branches a
                                 else if x = a then none else g.branches x}

/-- Run a list of git effects on a reference state. -/
def interp (g : GitSt) (tr : List GitEff) : GitSt := tr.foldl GitEff.apply g

end Rebranch

namespace Rebranch

theorem foldl_pick (r : Repo) (q : Nat → Bool) :
    ∀ (l : List Nat) (acc : List CommitInfo),
      l.foldl (fun commits c => if q c then mkPick r c :: commits else commits) acc
        = ((l.filter q).reverse.map (mkPick r)) ++ acc := by
  intro l
  induction l with
  | nil => intro acc; simp
  | cons c t ih =>
    intro acc
    by_cases hq : q c
    · simp only [List.foldl_cons, hq, if_pos, List.filter_cons_of_pos hq, List.reverse_cons,
        List.map_append, List.map_cons, List.map_nil, List.append_assoc, List.cons_append,
        List.nil_append]
      exact ih (mkPick r c :: acc)
    · simp only [List.foldl_cons, hq, if_neg, Bool.false_eq_true, not_false_iff,
        List.filter_cons_of_neg (by simpa using hq)]
      exact ih acc

/-- One list extends another when it appends entries at the end; the DFS
walk only ever appends to the seen list. -/
def Extends (v w : List Nat) : Prop := ∃ t, w = v ++ t

theorem extends_refl (v : List Nat) : Extends v v := ⟨[], (List.append_nil v).symm⟩

theorem extends_trans {u v w : List Nat} (h1 : Extends u v) (h2 : Extends v w) :
    Extends u w := by
  obtain ⟨t1, rfl⟩ := h1
  obtain ⟨t2, rfl⟩ := h2
  exact ⟨t1 ++ t2, List.append_assoc u t1 t2⟩

theorem extends_mem {v w : List Nat} (h : Extends v w) {x : Nat} (hx : x ∈ v) : x ∈ w := by
  obtain ⟨t, rfl⟩ := h
  exact List.mem_append_left t hx

theorem dfsVisit_grows (r : Repo) :
    ∀ fuel c visited, Extends visited (dfsVisit r fuel c visited) := by
  intro fuel
  induction fuel with
  | zero => intro c v; exact extends_refl v
  | succ f ih =>
    intro c v
    simp only [dfsVisit]
    split
    · exact extends_refl v
    · have hfold : ∀ (l : List Nat) (v0 : List Nat),
          Extends v0 (l.foldl (fun a p => dfsVisit r f p a) v0) := by
        intro l
        induction l with
        | nil => intro v0; exact extends_refl v0
        | cons p t iht => intro v0; exact extends_trans (ih p v0) (iht _)
      exact extends_trans ⟨[c], rfl⟩ (hfold _ _)

theorem dfsFold_grows (r : Repo) (f : Nat) :
    ∀ (l v : List Nat), Extends v (l.foldl (fun a p => dfsVisit r f p a) v) := by
  intro l
  induction l with
  | nil => intro v; exact extends_refl v
  | cons p t ih => intro v; exact extends_trans (dfsVisit_grows r f p v) (ih _)

theorem dfsVisit_self (r : Repo) (f : Nat) (c : Nat) (visited : List Nat) :
    c ∈ dfsVisit r (f + 1) c visited := by
  simp only [dfsVisit]
  split
  · assumption
  · exact extends_mem (dfsFold_grows r f _ _)
      (List.mem_append_right visited (List.mem_singleton_self c))

theorem dfsFold_mem (r : Repo) (f : Nat) :
    ∀ (l v : List Nat), (∀ p ∈ l, p < f) →
      ∀ p ∈ l, p ∈ l.foldl (fun a q => dfsVisit r f q a) v := by
  intro l
  induction l with
  | nil => intro v _ p hp; cases hp
  | cons q t ih =>
    intro v hlt p hp
    simp only [List.foldl_cons]
    rcases List.mem_cons.mp hp with rfl | hpt
    · have hq := hlt p (List.mem_cons_self p t)
      cases f with
      | zero => omega
      | succ f' => exact extends_mem (dfsFold_grows r (f' + 1) t _) (dfsVisit_self r f' p v)
    · exact ih _ (fun x hx => hlt x (List.mem_cons_of_mem q hx)) p hpt

theorem dfsVisit_sound (r : Repo) :
    ∀ fuel c visited, ∀ x ∈ dfsVisit r fuel c visited, x ∈ visited ∨ Reaches r x c := by
  intro fuel
  induction fuel with
  | zero => intro c v x hx; exact Or.inl hx
  | succ f ih =>
    intro c v x hx
    simp only [dfsVisit] at hx
    by_cases hcv : c ∈ v
    · rw [if_pos hcv] at hx
      exact Or.inl hx
    · rw [if_neg hcv] at hx
      have hfold : ∀ (l : List Nat) (v0 : List Nat),
          ∀ y ∈ l.foldl (fun a p => dfsVisit r f p a) v0,
            y ∈ v0 ∨ ∃ p ∈ l, Reaches r y p := by
        intro l
        induction l with
        | nil => intro v0 y hy; exact Or.inl hy
        | cons p t iht =>
          intro v0 y hy
          simp only [List.foldl_cons] at hy
          rcases iht _ y hy with hy' | ⟨q, hq, hr⟩
          · rcases ih p v0 y hy' with hy'' | hr
            · exact Or.inl hy''
            · exact Or.inr ⟨p, List.mem_cons_self p t, hr⟩
          · exact Or.inr ⟨q, List.mem_cons_of_mem p hq, hr⟩
      rcases hfold _ _ x hx with hx' | ⟨p, hp, hr⟩
      · rcases List.mem_append.mp hx' with h | h
        · exact Or.inl h
        · rw [List.mem_singleton] at h
          subst h
          exact Or.inr (Reaches.refl x)
      · exact Or.inr (Reaches.step hp hr)

theorem dfsVisit_closed (r : Repo) (hwf : r.Wf) :
    ∀ fuel c visited, c < fuel →
      ∀ x ∈ dfsVisit r fuel c visited,
        x ∈ visited ∨ ∀ p ∈ r.par x, p ∈ dfsVisit r fuel c visited := by
  intro fuel
  induction fuel with
  | zero => intro c v hc; omega
  | succ f ih =>
    intro c v hc x hx
    simp only [dfsVisit] at hx ⊢
    by_cases hcv : c ∈ v
    · rw [if_pos hcv] at hx ⊢
      exact Or.inl hx
    · rw [if_neg hcv] at hx ⊢
      have hpar : ∀ p ∈ r.par c, p < f := fun p hp =>
        Nat.lt_of_lt_of_le (hwf _ _ hp) (Nat.lt_succ_iff.mp hc)
      have hfold : ∀ (l : List Nat) (v0 : List Nat), (∀ p ∈ l, p < f) →
          ∀ y ∈ l.foldl (fun a p => dfsVisit r f p a) v0,
            y ∈ v0 ∨ ∀ q ∈ r.par y, q ∈ l.foldl (fun a p => dfsVisit r f p a) v0 := by
        intro l
        induction l with
        | nil => intro v0 _ y hy; exact Or.inl hy
        | cons p t iht =>
          intro v0 hlt y hy
          simp only [List.foldl_cons] at hy ⊢
          rcases iht _ (fun q hq => hlt q (List.mem_cons_of_mem p hq)) y hy with hy' | hcl
          · rcases ih p v0 (hlt p (List.mem_cons_self p t)) y hy' with hy'' | hcl'
            · exact Or.inl hy''
            · exact Or.inr (fun q hq => extends_mem (dfsFold_grows r f t _) (hcl' q hq))
          · exact Or.inr hcl
      rcases hfold (r.par c) (v ++ [c]) hpar x hx with hx' | hcl
      · rcases List.mem_append.mp hx' with h | h
        · exact Or.inl h
        · rw [List.mem_singleton] at h
          subst h
          exact Or.inr (fun p hp => dfsFold_mem r f _ _ hpar p hp)
      · exact Or.inr hcl

/-- Under well-formedness the DFS pre-order from `head` visits exactly the
commits reachable from `head`: soundness is direct, completeness runs over
the parent-closedness of the finished walk. -/
theorem logList_mem (r : Repo) (hwf : r.Wf) (head : Nat) :
    ∀ c, c ∈ logList r head ↔ Reaches r c head := by
  have hclosed : ∀ x ∈ logList r head, ∀ p ∈ r.par x, p ∈ logList r head := by
    intro x hx p hp
    rcases dfsVisit_closed r hwf (head + 1) head [] (Nat.lt_succ_self head) x hx with h | h
    · cases h
    · exact h p hp
  have hdown : ∀ {a d : Nat}, Reaches r a d → d ∈ logList r head → a ∈ logList r head := by
    intro a d h
    induction h with
    | refl => intro hd; exact hd
    | step hp _ ih => intro hd; exact ih (hclosed _ hd _ hp)
  intro c
  constructor
  · intro hc
    rcases dfsVisit_sound r (head + 1) head [] c hc with h | h
    · cases h
    · exact h
  · intro hr
    exact hdown hr (dfsVisit_self r head head [])

theorem getCommitsBetween_eq (r : Repo) (base head : Nat) :
    getCommitsBetween r base head
      = if base = head then []
        else ((logList r head).filter
            (fun c => !(ancestorB r c base))).reverse.map (mkPick r) := by
  by_cases hbh : base = head
  · unfold getCommitsBetween
    rw [if_pos hbh, if_pos hbh]
  · unfold getCommitsBetween
    rw [if_neg hbh, if_neg hbh]
    have hbody :
        (fun (commits : List CommitInfo) (c : Nat) =>
            if c = base then commits
            else if gitIsAncestor r base c then commits
            else mkPick r c :: commits)
          = (fun commits c => if !(ancestorB r c base) then mkPick r c :: commits else commits) := by
      funext commits c
      by_cases hc : c = base
      · subst hc
        rw [if_pos rfl, ancestorB_refl]
        simp
      · rw [if_neg hc, gitIsAncestor_eq]
        by_cases ha : ancestorB r c base
        · rw [if_pos ha, ha]
          simp
        · rw [if_neg ha, Bool.not_eq_true] at *
          rw [ha]
          simp
    rw [hbody, foldl_pick, List.append_nil]

theorem firstLine_of_no_newline {s : GoStr} (h : ∀ ch ∈ s, ch ≠ '\n') : firstLine s = s := by
  unfold firstLine
  exact List.takeWhile_eq_self_iff.mpr (fun x hx => decide_eq_true (h x hx))

/-- Concrete two-commit repository: commit 0 is the base tip, commit 1 the
head tip with a two-line commit message. -/
def exRepo : Repo :=
  ⟨[[], [0]],
   fun c => if c = 0 then "aaaaaaa0000000".toList else "bbbbbbb1111111".toList,
   fun c => if c = 0 then "init".toList else "Title\nBody".toList⟩

example : getCommitsBetween exRepo 0 1 = [mkPick exRepo 1] := by decide

/-- Concrete merge-bearing repository: commit 0 is the shared root, commit 1
the base tip, commits 2 → 3 → 4 a chain branched from the root, and commit 5
(the head) a merge whose first parent is the old branch point 2 and whose
second parent is the chain tip 4. -/
def exMergeRepo : Repo :=
  ⟨[[], [0], [0], [2], [3], [2, 4]],
   fun c => (["root000", "base111", "fst2222", "mid3333", "tip4444", "mrg5555"].getD c "").toList,
   fun c => (["root", "base", "first", "middle", "tip", "merge"].getD c "").toList⟩

example : logList exMergeRepo 5 = [5, 2, 0, 4, 3] := by decide

@[simp] theorem savedStates_nil : savedStates [] = [] := rfl

@[simp] theorem savedStates_git_cons (g : GitEff) (tr : List Ev) :
    savedStates (.git g :: tr) = savedStates tr := rfl

@[simp] theorem savedStates_save_cons (st : RebranchState) (tr : List Ev) :
    savedStates (.save st :: tr) = st :: savedStates tr := rfl

@[simp] theorem gitTrace_nil : gitTrace [] = [] := rfl

@[simp] theorem gitTrace_git_cons (g : GitEff) (tr : List Ev) :
    gitTrace (.git g :: tr) = g :: gitTrace tr := rfl

@[simp] theorem gitTrace_save_cons (st : RebranchState) (tr : List Ev) :
    gitTrace (.save st :: tr) = gitTrace tr := rfl

theorem stage_picking_ne_conflicts : "picking".toList ≠ "conflicts".toList := by decide

theorem stage_done_ne_conflicts : "done".toList ≠ "conflicts".toList := by decide

/-- If every applicable entry strictly before relative position `k`
cherry-picks cleanly and persists, and the entry at `k` is applicable but
its cherry-pick fails, then the loop reaches `k`, persists the record with
the cursor at the failing absolute index and stage `conflicts`, and then
surfaces the conflict error (or the save error if that persist fails);
moreover every record it ever persists with stage `conflicts` is exactly
that one. -/
theorem applyGo_conflict (o : Oracle) :
    ∀ (l : List CommitInfo) (k i : Nat) (w : World) (st : RebranchState),
      st.Stage = "picking".toList →
      ∀ (hk : k < l.length),
      l[k].Action ≠ "drop".toList →
      o.cherryPickOk l[k].SHA = false →
      (∀ j, j < k → ∀ (hjl : j < l.length),
        l[j].Action ≠ "drop".toList →
          o.cherryPickOk l[j].SHA = true ∧
          o.saveOk {st with CurrentCommitIdx := i + j} = true) →
      (o.saveOk {st with CurrentCommitIdx := i + k, Stage := "conflicts".toList} = true →
        (applyGo o w st l i).result
            = .error (.conflict (l[k].SHA.take 7)) ∧
        (applyGo o w st l i).world
            = ⟨some {st with CurrentCommitIdx := i + k, Stage := "conflicts".toList}⟩ ∧
        (∀ s ∈ savedStates (applyGo o w st l i).trace, s.Stage = "conflicts".toList →
          s = {st with CurrentCommitIdx := i + k, Stage := "conflicts".toList})) ∧
      (o.saveOk {st with CurrentCommitIdx := i + k, Stage := "conflicts".toList} = false →
        (applyGo o w st l i).result = .error .conflictSaveFailed) := by
  intro l
  induction l with
  | nil => intro k i w st _ hk; exact absurd hk (by simp)
  | cons c rest ih =>
    intro k i w st hstage hk happ hfail hpre
    cases k with
    | zero =>
      simp only [List.getElem_cons_zero] at happ hfail
      simp only [Nat.add_zero, List.getElem_cons_zero]
      have heq : applyGo o w st (c :: rest) i
          = if o.saveOk {st with CurrentCommitIdx := i, Stage := "conflicts".toList} then
              ⟨.error (.conflict (c.SHA.take 7)),
               ⟨some {st with CurrentCommitIdx := i, Stage := "conflicts".toList}⟩,
               [.save {st with CurrentCommitIdx := i, Stage := "conflicts".toList}]⟩
            else ⟨.error .conflictSaveFailed, w, []⟩ := by
        simp only [applyGo]
        rw [if_neg happ, if_neg (by simp [hfail])]
      constructor
      · intro hsave
        rw [heq, if_pos hsave]
        refine ⟨rfl, rfl, ?_⟩
        intro s hs _
        simpa using hs
      · intro hsave
        rw [heq, if_neg (fun hcon => by rw [hsave] at hcon; cases hcon)]
    | succ k' =>
      simp only [List.getElem_cons_succ] at happ hfail
      have hk' : k' < rest.length := by
        simp only [List.length_cons] at hk
        omega
      by_cases hdrop : c.Action = "drop".toList
      · have heq : applyGo o w st (c :: rest) i = applyGo o w st rest (i + 1) := by
          simp [applyGo, hdrop]
        have hpre' : ∀ j, j < k' → ∀ (hjl : j < rest.length),
            rest[j].Action ≠ "drop".toList →
              o.cherryPickOk rest[j].SHA = true ∧
              o.saveOk {st with CurrentCommitIdx := (i + 1) + j} = true := by
          intro j hj hjl hja
          have hj1 : j + 1 < (c :: rest).length := by simp; omega
          have := hpre (j + 1) (by omega) hj1 (by simpa using hja)
          simp only [List.getElem_cons_succ] at this
          have harith : i + (j + 1) = (i + 1) + j := by omega
          rw [harith] at this
          exact this
        have harith : (i + 1) + k' = i + (k' + 1) := by omega
        have := ih k' (i + 1) w st hstage hk' happ hfail hpre'
        rw [harith] at this
        rw [heq]
        exact this
      · have h0 := hpre 0 (by omega) (by simp) (by simpa using hdrop)
        simp only [List.getElem_cons_zero, Nat.add_zero] at h0
        obtain ⟨hcp, hsv⟩ := h0
        have heq : applyGo o w st (c :: rest) i
            = ⟨(applyGo o ⟨some {st with CurrentCommitIdx := i}⟩
                  {st with CurrentCommitIdx := i} rest (i + 1)).result,
               (applyGo o ⟨some {st with CurrentCommitIdx := i}⟩
                  {st with CurrentCommitIdx := i} rest (i + 1)).world,
               .git (.cherryPick c.SHA) :: .save {st with CurrentCommitIdx := i} ::
                 (applyGo o ⟨some {st with CurrentCommitIdx := i}⟩
                    {st with CurrentCommitIdx := i} rest (i + 1)).trace⟩ := by
          simp only [applyGo]
          rw [if_neg hdrop, if_pos hcp, if_pos hsv]
        have hpre' : ∀ j, j < k' → ∀ (hjl : j < rest.length),
            rest[j].Action ≠ "drop".toList →
              o.cherryPickOk rest[j].SHA = true ∧
              o.saveOk {({st with CurrentCommitIdx := i} : RebranchState) with
                CurrentCommitIdx := (i + 1) + j} = true := by
          intro j hj hjl hja
          have hj1 : j + 1 < (c :: rest).length := by simp; omega
          have := hpre (j + 1) (by omega) hj1 (by simpa using hja)
          simp only [List.getElem_cons_succ] at this
          have harith : i + (j + 1) = (i + 1) + j := by omega
          rw [harith] at this
          exact this
        have harith : (i + 1) + k' = i + (k' + 1) := by omega
        have hmain := ih k' (i + 1) ⟨some {st with CurrentCommitIdx := i}⟩
          {st with CurrentCommitIdx := i} hstage hk' happ hfail hpre'
        rw [harith] at hmain
        constructor
        · intro hsave
          obtain ⟨hr, hw, hsaves⟩ := hmain.1 hsave
          rw [heq]
          refine ⟨hr, hw, ?_⟩
          intro s hs hstg
          simp only [savedStates_git_cons, savedStates_save_cons, List.mem_cons] at hs
          rcases hs with rfl | hs
          · exact absurd hstg (by simpa [hstage] using stage_picking_ne_conflicts)
          · exact hsaves s hs hstg
        · intro hsave
          rw [heq]
          exact hmain.2 hsave

/-- Every cherry-pick in the apply loop's trace comes from an applicable
entry of the processed suffix. -/
theorem applyGo_picks (o : Oracle) :
    ∀ (l : List CommitInfo) (i : Nat) (w : World) (st : RebranchState) (sha : GoStr),
      Ev.git (.cherryPick sha) ∈ (applyGo o w st l i).trace →
      ∃ j, ∃ (hj : j < l.length), l[j].SHA = sha ∧ l[j].Action ≠ "drop".toList := by
  intro l
  induction l with
  | nil =>
    intro i w st sha hmem
    simp only [applyGo] at hmem
    split at hmem
    · simp only [List.mem_singleton] at hmem
      cases hmem
    · simp at hmem
  | cons c rest ih =>
    intro i w st sha hmem
    by_cases hdrop : c.Action = "drop".toList
    · simp only [applyGo, hdrop, if_pos] at hmem
      obtain ⟨j, hj, h1, h2⟩ := ih (i + 1) w st sha hmem
      exact ⟨j + 1, by simpa using hj, by simpa using h1, by simpa using h2⟩
    · by_cases hcp : o.cherryPickOk c.SHA = true
      · by_cases hsv : o.saveOk {st with CurrentCommitIdx := i} = true
        · simp only [applyGo, hdrop, if_neg, hcp, if_pos, hsv, not_false_iff,
            List.mem_cons] at hmem
          rcases hmem with h | h | h
          · cases h
            exact ⟨0, by simp, by simp, by simpa using hdrop⟩
          · cases h
          · obtain ⟨j, hj, h1, h2⟩ := ih (i + 1) ⟨some {st with CurrentCommitIdx := i}⟩
              {st with CurrentCommitIdx := i} sha h
            exact ⟨j + 1, by simpa using hj, by simpa using h1, by simpa using h2⟩
        · simp only [applyGo, hdrop, if_neg, hcp, if_pos, hsv, Bool.false_eq_true,
            not_false_iff, List.mem_singleton] at hmem
          cases hmem
          exact ⟨0, by simp, by simp, by simpa using hdrop⟩
      · simp only [applyGo, hdrop, if_neg, hcp, Bool.false_eq_true, not_false_iff] at hmem
        split at hmem
        · simp only [List.mem_singleton] at hmem
          cases hmem
        · simp at hmem

/-- The apply loop's git effects are cherry-picks only: it never creates,
checks out, deletes, or renames a branch. -/
theorem applyGo_gitTrace (o : Oracle) :
    ∀ (l : List CommitInfo) (i : Nat) (w : World) (st : RebranchState),
      ∀ e ∈ gitTrace (applyGo o w st l i).trace, ∃ sha, e = GitEff.cherryPick sha := by
  intro l
  induction l with
  | nil =>
    intro i w st e he
    simp only [applyGo] at he
    split at he <;> simp_all
  | cons c rest ih =>
    intro i w st e he
    by_cases hdrop : c.Action = "drop".toList
    · simp only [applyGo, hdrop, if_pos] at he
      exact ih (i + 1) w st e he
    · by_cases hcp : o.cherryPickOk c.SHA = true
      · by_cases hsv : o.saveOk {st with CurrentCommitIdx := i} = true
        · simp only [applyGo, hdrop, if_neg, hcp, if_pos, hsv, not_false_iff,
            gitTrace_git_cons, gitTrace_save_cons, List.mem_cons] at he
          rcases he with rfl | he
          · exact ⟨c.SHA, rfl⟩
          · exact ih (i + 1) _ _ e he
        · simp only [applyGo, hdrop, if_neg, hcp, if_pos, hsv, Bool.false_eq_true,
            not_false_iff, gitTrace_git_cons, gitTrace_nil, List.mem_singleton] at he
          exact ⟨c.SHA, he⟩
      · simp only [applyGo, hdrop, if_neg, hcp, Bool.false_eq_true, not_false_iff] at he
        split at he <;> simp_all

/-- Cursor values persisted by the apply loop are monotonically
non-decreasing and never fall below the loop's starting index. -/
theorem applyGo_savedCursors (o : Oracle) :
    ∀ (l : List CommitInfo) (i : Nat) (w : World) (st : RebranchState),
      st.CurrentCommitIdx ≤ i →
      List.Sorted (· ≤ ·) (savedCursors (applyGo o w st l i).trace) ∧
      ∀ x ∈ savedCursors (applyGo o w st l i).trace, st.CurrentCommitIdx ≤ x := by
  intro l
  induction l with
  | nil =>
    intro i w st hle
    simp only [applyGo]
    split
    · simp [savedCursors, List.Sorted]
    · simp [savedCursors, List.Sorted]
  | cons c rest ih =>
    intro i w st hle
    by_cases hdrop : c.Action = "drop".toList
    · simp only [applyGo, hdrop, if_pos]
      exact ih (i + 1) w st (by omega)
    · by_cases hcp : o.cherryPickOk c.SHA = true
      · by_cases hsv : o.saveOk {st with CurrentCommitIdx := i} = true
        · simp only [applyGo, hdrop, if_neg, hcp, if_pos, hsv, not_false_iff]
          have := ih (i + 1) ⟨some {st with CurrentCommitIdx := i}⟩
            {st with CurrentCommitIdx := i} (by simp)
          simp only [savedCursors, savedStates_git_cons, savedStates_save_cons,
            List.map_cons] at this ⊢
          refine ⟨List.sorted_cons.mpr ⟨?_, this.1⟩, ?_⟩
          · intro b hb
            exact this.2 b hb
          · intro x hx
            rcases List.mem_cons.mp hx with rfl | hx
            · exact hle
            · exact Nat.le_trans hle (this.2 x hx)
        · simp only [applyGo, hdrop, if_neg, hcp, if_pos, hsv, Bool.false_eq_true,
            not_false_iff]
          simp [savedCursors, List.Sorted]
      · simp only [applyGo, hdrop, if_neg, hcp, Bool.false_eq_true, not_false_iff]
        split
        · simp only [savedCursors, savedStates_save_cons, savedStates_nil, List.map_cons,
            List.map_nil]
          refine ⟨List.sorted_singleton _, ?_⟩
          intro x hx
          rcases List.mem_singleton.mp hx with rfl
          exact hle
        · simp [savedCursors, List.Sorted]

/-- Cherry-pick effects leave every branch other than the currently
checked-out one untouched, and do not move the checkout. -/
theorem splitNl_ne_nil : ∀ s : GoStr, splitNl s ≠ [] := by
  intro s
  cases s with
  | nil => simp [splitNl]
  | cons c rest =>
    simp only [splitNl]
    by_cases hc : c = '\n'
    · rw [if_pos hc]; simp
    · rw [if_neg hc]
      cases splitNl rest <;> simp

theorem splitNl_append_newline {a : GoStr} (ha : '\n' ∉ a) (s : GoStr) :
    splitNl (a ++ '\n' :: s) = a :: splitNl s := by
  induction a with
  | nil => simp [splitNl]
  | cons c a' ih =>
    have hc : c ≠ '\n' := fun h => ha (h ▸ List.mem_cons_self c a')
    have ha' : '\n' ∉ a' := fun h => ha (List.mem_cons_of_mem c h)
    simp only [List.cons_append, splitNl, if_neg hc, List.append_eq]
    rw [ih ha']

theorem splitNl_joinNl :
    ∀ (a : GoStr) (t : List GoStr), (∀ l ∈ a :: t, '\n' ∉ l) →
      splitNl (joinNl (a :: t) ++ ['\n']) = (a :: t) ++ [[]] := by
  intro a t
  induction t generalizing a with
  | nil =>
    intro h
    have ha : '\n' ∉ a := h a (List.mem_cons_self a [])
    simp only [joinNl]
    rw [show (a ++ ['\n'] : GoStr) = a ++ '\n' :: [] from rfl, splitNl_append_newline ha]
    rfl
  | cons b t' ih =>
    intro h
    have ha : '\n' ∉ a := h a (List.mem_cons_self a (b :: t'))
    have hrest : ∀ l ∈ b :: t', '\n' ∉ l := fun l hl => h l (List.mem_cons_of_mem a hl)
    have hjoin : joinNl (a :: b :: t') = a ++ '\n' :: joinNl (b :: t') := rfl
    rw [hjoin, List.cons_append, List.append_assoc]
    rw [show ('\n' :: joinNl (b :: t')) ++ ['\n'] = '\n' :: (joinNl (b :: t') ++ ['\n']) from rfl]
    rw [splitNl_append_newline ha, ih b hrest]

theorem goFieldsAux_spaces :
    ∀ (s : GoStr) (cur : GoStr), (∀ ch ∈ s, goIsSpace ch = true) →
      goFieldsAux cur s = if cur.isEmpty then [] else [cur.reverse] := by
  intro s
  induction s with
  | nil => intro cur _; rfl
  | cons c r ih =>
    intro cur h
    have hc : goIsSpace c = true := h c (List.mem_cons_self c r)
    have hr : ∀ ch ∈ r, goIsSpace ch = true := fun ch hch => h ch (List.mem_cons_of_mem c hch)
    simp only [goFieldsAux, if_pos hc]
    by_cases hcur : cur.isEmpty
    · rw [if_pos hcur, ih [] hr]
      simp [hcur]
    · rw [if_neg hcur, ih [] hr]
      simp [hcur]

theorem goFieldsAux_append_spaces {sp2 : GoStr} (hsp : ∀ ch ∈ sp2, goIsSpace ch = true) :
    ∀ (x : GoStr) (cur : GoStr), goFieldsAux cur (x ++ sp2) = goFieldsAux cur x := by
  intro x
  induction x with
  | nil =>
    intro cur
    rw [List.nil_append, goFieldsAux_spaces sp2 cur hsp]
    rfl
  | cons c x' ih =>
    intro cur
    simp only [List.cons_append, List.append_eq, goFieldsAux]
    by_cases hc : goIsSpace c
    · rw [if_pos hc, if_pos hc]
      by_cases hcur : cur.isEmpty
      · rw [if_pos hcur, if_pos hcur, ih []]
      · rw [if_neg hcur, if_neg hcur, ih []]
    · rw [if_neg hc, if_neg hc, ih (c :: cur)]

theorem goFieldsAux_word :
    ∀ (w : GoStr) (cur : GoStr) (sp : Char) (rest : GoStr),
      (∀ ch ∈ w, goIsSpace ch = false) → goIsSpace sp = true →
      cur.reverse ++ w ≠ [] →
      goFieldsAux cur (w ++ sp :: rest) = (cur.reverse ++ w) :: goFieldsAux [] rest := by
  intro w
  induction w with
  | nil =>
    intro cur sp rest _ hsp hne
    have hcur : ¬ cur.isEmpty := by
      simp only [List.append_nil] at hne
      simpa [List.isEmpty_iff] using fun h => hne (by rw [h]; rfl)
    simp only [List.nil_append, goFieldsAux, if_pos hsp, if_neg hcur, List.append_nil]
  | cons c w' ih =>
    intro cur sp rest hns hsp _
    have hc : goIsSpace c = false := hns c (List.mem_cons_self c w')
    have hw' : ∀ ch ∈ w', goIsSpace ch = false := fun ch hch => hns ch (List.mem_cons_of_mem c hch)
    simp only [List.cons_append, List.append_eq, goFieldsAux, hc, Bool.false_eq_true, if_neg,
      not_false_iff]
    rw [ih (c :: cur) sp rest hw' hsp (by simp)]
    simp

theorem goFields_word {w : GoStr} (rest : GoStr) (hw : w ≠ [])
    (hns : ∀ ch ∈ w, goIsSpace ch = false) {sp : Char} (hsp : goIsSpace sp = true) :
    goFields (w ++ sp :: rest) = w :: goFields rest := by
  unfold goFields
  rw [goFieldsAux_word w [] sp rest hns hsp (by simpa using hw)]
  simp

theorem goFields_dropWhile (s : GoStr) :
    goFields (s.dropWhile goIsSpace) = goFields s := by
  induction s with
  | nil => rfl
  | cons c r ih =>
    by_cases hc : goIsSpace c
    · rw [List.dropWhile_cons_of_pos hc, ih]
      simp [goFields, goFieldsAux, hc]
    · rw [List.dropWhile_cons_of_neg hc]

theorem goFields_trim (s : GoStr) : goFields (goTrim s) = goFields s := by
  unfold goTrim
  rw [← goFields_dropWhile s]
  have hdecomp : s.dropWhile goIsSpace
      = ((s.dropWhile goIsSpace).reverse.dropWhile goIsSpace).reverse
        ++ ((s.dropWhile goIsSpace).reverse.takeWhile goIsSpace).reverse := by
    have h := List.takeWhile_append_dropWhile (p := goIsSpace)
      (l := (s.dropWhile goIsSpace).reverse)
    calc s.dropWhile goIsSpace
        = (s.dropWhile goIsSpace).reverse.reverse := by rw [List.reverse_reverse]
      _ = ((s.dropWhile goIsSpace).reverse.takeWhile goIsSpace
            ++ (s.dropWhile goIsSpace).reverse.dropWhile goIsSpace).reverse := by rw [h]
      _ = _ := by rw [List.reverse_append]
  conv_rhs => rw [hdecomp]
  have hsp : ∀ ch ∈ ((s.dropWhile goIsSpace).reverse.takeWhile goIsSpace).reverse,
      goIsSpace ch = true := by
    intro ch hch
    rw [List.mem_reverse] at hch
    exact List.mem_takeWhile_imp hch
  unfold goFields
  rw [goFieldsAux_append_spaces hsp]

theorem goTrim_cons_head {c : Char} (hc : goIsSpace c = false) (t : GoStr) :
    ∃ u, goTrim (c :: t) = c :: u := by
  unfold goTrim
  rw [List.dropWhile_cons_of_neg (by simp [hc])]
  rw [List.reverse_cons, List.dropWhile_append]
  by_cases he : (t.reverse.dropWhile goIsSpace).isEmpty
  · rw [if_pos he, List.dropWhile_cons_of_neg (by simp [hc])]
    exact ⟨[], rfl⟩
  · rw [if_neg he]
    rw [List.reverse_append, List.reverse_cons, List.reverse_nil, List.nil_append]
    exact ⟨(t.reverse.dropWhile goIsSpace).reverse, rfl⟩

theorem shortSha_ne_nil {s : GoStr} (h : s ≠ []) : shortSha s ≠ [] := by
  unfold shortSha
  split
  · intro hc
    rcases List.take_eq_nil_iff.mp hc with h7 | hnil
    · exact absurd h7 (by omega)
    · exact h hnil
  · exact h

theorem shortSha_subset {s : GoStr} : ∀ ch ∈ shortSha s, ch ∈ s := by
  intro ch hch
  unfold shortSha at hch
  split at hch
  · exact List.mem_of_mem_take hch
  · exact hch

theorem lookupSha_filter {orig : List CommitInfo} {c : CommitInfo} (hc : c ∈ orig)
    (hnd : (orig.map (fun x => shortSha x.SHA)).Nodup) :
    orig.filter (fun x => decide (shortSha x.SHA = shortSha c.SHA)) = [c] := by
  induction orig with
  | nil => cases hc
  | cons h t ih =>
    rw [List.map_cons, List.nodup_cons] at hnd
    rcases List.mem_cons.mp hc with rfl | hct
    · rw [List.filter_cons_of_pos (by simp)]
      have : t.filter (fun x => decide (shortSha x.SHA = shortSha c.SHA)) = [] := by
        refine List.filter_eq_nil_iff.mpr (fun x hx hpx => ?_)
        have hex : shortSha x.SHA = shortSha c.SHA := of_decide_eq_true hpx
        exact hnd.1 (List.mem_map.mpr ⟨x, hx, hex⟩)
      rw [this]
    · have hne : ¬ (shortSha h.SHA = shortSha c.SHA) := by
        intro he
        exact hnd.1 (List.mem_map.mpr ⟨c, hct, he.symm⟩)
      rw [List.filter_cons_of_neg (by simpa using hne)]
      exact ih hct hnd.2

theorem lookupSha_self {orig : List CommitInfo} {c : CommitInfo} (hc : c ∈ orig)
    (hnd : (orig.map (fun x => shortSha x.SHA)).Nodup) :
    lookupSha orig (shortSha c.SHA) = some c := by
  unfold lookupSha
  rw [lookupSha_filter hc hnd]
  rfl

theorem parseLines_skip (orig : List CommitInfo) (line : GoStr) (rest : List GoStr) (n : Nat)
    (h : goTrim line = [] ∨ (goTrim line).head? = some '#') :
    parseLines orig (line :: rest) n = parseLines orig rest (n + 1) := by
  simp only [parseLines]
  rw [if_pos h]

theorem parseLines_commit_line (orig : List CommitInfo) (line : GoStr) (rest : List GoStr)
    (n : Nat) (c : CommitInfo)
    (hskip : ¬ (goTrim line = [] ∨ (goTrim line).head? = some '#'))
    (hfds : goFields (goTrim line) = "pick".toList :: shortSha c.SHA :: goFields c.Message)
    (hlook : lookupSha orig (shortSha c.SHA) = some c) :
    parseLines orig (line :: rest) n
      = match parseLines orig rest (n + 1) with
        | .error e => .error e
        | .ok cs => .ok (⟨c.SHA, c.Message, "pick".toList⟩ :: cs) := by
  simp only [parseLines]
  rw [if_neg hskip, hfds]
  have hnorm : normalizeAction ("pick".toList) = some ("pick".toList) := by decide
  simp only [hnorm, hlook]

/-- Parsing the rendered commit lines (followed by the trailing blank line
that a final newline produces) restores the original entries, with every
action set to `pick`. -/
theorem parseLines_render (orig : List CommitInfo)
    (hnd : (orig.map (fun x => shortSha x.SHA)).Nodup) :
    ∀ (cs : List CommitInfo) (n : Nat),
      (∀ c ∈ cs, c ∈ orig ∧ c.SHA ≠ [] ∧ (∀ ch ∈ c.SHA, goIsSpace ch = false) ∧
        (∀ ch ∈ c.Message, ch ≠ '\n')) →
      parseLines orig (cs.map renderLine ++ [[]]) n
        = .ok (cs.map (fun c => ⟨c.SHA, c.Message, "pick".toList⟩)) := by
  intro cs
  induction cs with
  | nil =>
    intro n _
    rw [List.map_nil, List.nil_append, parseLines_skip orig [] [] n (Or.inl rfl)]
    rfl
  | cons c cs' ih =>
    intro n h
    obtain ⟨horig, hne, hns, hmsg⟩ := h c (List.mem_cons_self c cs')
    obtain ⟨u, hu⟩ := goTrim_cons_head (show goIsSpace 'p' = false by decide)
      ("ick ".toList ++ (shortSha c.SHA ++ ' ' :: c.Message))
    have hu' : goTrim (renderLine c) = 'p' :: u := hu
    have hskip : ¬ (goTrim (renderLine c) = [] ∨ (goTrim (renderLine c)).head? = some '#') := by
      rw [hu']
      simp
    have hfds : goFields (goTrim (renderLine c))
        = "pick".toList :: shortSha c.SHA :: goFields c.Message := by
      rw [goFields_trim]
      have h1 : renderLine c = "pick".toList ++ ' ' :: (shortSha c.SHA ++ ' ' :: c.Message) := rfl
      rw [h1, goFields_word _ (by decide) (by decide) (by decide)]
      rw [goFields_word _ (shortSha_ne_nil hne)
        (fun ch hch => hns ch (shortSha_subset ch hch)) (by decide)]
    rw [List.map_cons, List.cons_append,
      parseLines_commit_line orig (renderLine c) (cs'.map renderLine ++ [[]]) n c hskip hfds
        (lookupSha_self horig hnd),
      ih (n + 1) (fun x hx => h x (List.mem_cons_of_mem c hx))]
    rfl

theorem splitNl_joinNl_of_ne_nil (ls : List GoStr) (hls : ls ≠ []) (h : ∀ l ∈ ls, '\n' ∉ l) :
    splitNl (joinNl ls ++ ['\n']) = ls ++ [[]] := by
  cases ls with
  | nil => exact absurd rfl hls
  | cons a t => exact splitNl_joinNl a t h

theorem renderLine_no_newline {c : CommitInfo} (hns : ∀ ch ∈ c.SHA, goIsSpace ch = false)
    (hmsg : ∀ ch ∈ c.Message, ch ≠ '\n') : '\n' ∉ renderLine c := by
  intro hmem
  unfold renderLine at hmem
  rcases List.mem_append.mp hmem with hh | hh
  · rcases List.mem_append.mp hh with h1 | h1
    · exact absurd h1 (by decide)
    · have := hns '\n' (shortSha_subset '\n' h1)
      simp [goIsSpace] at this
  · rcases List.mem_cons.mp hh with hsp | h2
    · exact absurd hsp (by decide)
    · exact hmsg '\n' h2 rfl

theorem parseLines_skip_all (orig : List CommitInfo) (hs : List GoStr) (rest : List GoStr)
    (h : ∀ l ∈ hs, goTrim l = [] ∨ (goTrim l).head? = some '#') :
    ∀ n, parseLines orig (hs ++ rest) n = parseLines orig rest (n + hs.length) := by
  induction hs with
  | nil => intro n; simp
  | cons a t ih =>
    intro n
    rw [List.cons_append,
      parseLines_skip orig a (t ++ rest) n (h a (List.mem_cons_self a t)),
      ih (fun l hl => h l (List.mem_cons_of_mem a hl)) (n + 1)]
    congr 1
    simp only [List.length_cons]
    omega

/-- C5 amended: for every non-empty commit sequence whose identifiers are
non-empty and whitespace-free with pairwise-distinct 7-character short
forms, and whose summaries contain no newline, rendering to the editable
listing and parsing it back unedited reproduces the sequence — same
identifiers, same summaries, same order — with every action set to
`pick`. -/
theorem render_parse_roundtrip (commits : List CommitInfo)
    (hne : commits ≠ [])
    (hsha : ∀ c ∈ commits, c.SHA ≠ [] ∧ ∀ ch ∈ c.SHA, goIsSpace ch = false)
    (hmsg : ∀ c ∈ commits, ∀ ch ∈ c.Message, ch ≠ '\n')
    (hnd : (commits.map (fun c => shortSha c.SHA)).Nodup) :
    parseInteractiveFile (createInteractiveFile commits) commits
      = .ok (commits.map (fun c => ⟨c.SHA, c.Message, "pick".toList⟩)) := by
  have hhd : ∀ l ∈ headerLines, '\n' ∉ l := by decide
  have hnl : ∀ l ∈ headerLines ++ commits.map renderLine, '\n' ∉ l := by
    intro l hl
    rcases List.mem_append.mp hl with hh | hh
    · exact hhd l hh
    · obtain ⟨c, hc, rfl⟩ := List.mem_map.mp hh
      exact renderLine_no_newline (hsha c hc).2 (hmsg c hc)
  have hsplit : splitNl (createInteractiveFile commits)
      = (headerLines ++ commits.map renderLine) ++ [[]] := by
    unfold createInteractiveFile
    exact splitNl_joinNl_of_ne_nil _ (by simp [headerLines]) hnl
  have hall : ∀ c ∈ commits, c ∈ commits ∧ c.SHA ≠ [] ∧
      (∀ ch ∈ c.SHA, goIsSpace ch = false) ∧ (∀ ch ∈ c.Message, ch ≠ '\n') :=
    fun c hc => ⟨hc, (hsha c hc).1, (hsha c hc).2, hmsg c hc⟩
  have hskips : ∀ l ∈ headerLines, goTrim l = [] ∨ (goTrim l).head? = some '#' := by decide
  unfold parseInteractiveFile
  rw [hsplit, List.append_assoc, parseLines_skip_all commits headerLines _ hskips 1,
    parseLines_render commits hnd commits (1 + headerLines.length) hall]
  cases commits with
  | nil => exact absurd rfl hne
  | cons c cs => rfl

theorem interp_picks_preserve :
    ∀ (tr : List GitEff) (g : GitSt) (b : GoStr),
      (∀ e ∈ tr, ∃ sha, e = GitEff.cherryPick sha) → b ≠ g.head →
      (interp g tr).branches b = g.branches b ∧ (interp g tr).head = g.head := by
  intro tr
  induction tr with
  | nil => intro g b _ _; exact ⟨rfl, rfl⟩
  | cons e rest ih =>
    intro g b hall hb
    obtain ⟨sha, rfl⟩ := hall e (List.mem_cons_self e rest)
    have hstep : interp g (GitEff.cherryPick sha :: rest)
        = interp (GitEff.apply g (GitEff.cherryPick sha)) rest := rfl
    rw [hstep]
    have hg' : (GitEff.apply g (GitEff.cherryPick sha)).head = g.head := rfl
    have := ih (GitEff.apply g (GitEff.cherryPick sha)) b
      (fun e he => hall e (List.mem_cons_of_mem _ he)) (by rw [hg']; exact hb)
    refine ⟨?_, by rw [this.2, hg']⟩
    rw [this.1]
    simp only [GitEff.apply]
    rw [if_neg hb]

example : goFields "  pick  ab ".toList = ["pick".toList, "ab".toList] := rfl

example : goFields "  pick  abc1234  First commit ".toList
    = ["pick".toList, "abc1234".toList, "First".toList, "commit".toList] := by decide

example :
    parseInteractiveFile
      (createInteractiveFile [⟨"abc1234567890".toList, "First commit".toList, "pick".toList⟩])
      [⟨"abc1234567890".toList, "First commit".toList, "pick".toList⟩]
    = .ok [⟨"abc1234567890".toList, "First commit".toList, "pick".toList⟩] := by decide

/-- First concrete commit entry. -/
def exCommitA : CommitInfo := ⟨"aaaaaaa0000000".toList, "First commit".toList, "pick".toList⟩

/-- Second concrete commit entry. -/
def exCommitB : CommitInfo := ⟨"bbbbbbb1111111".toList, "Second commit".toList, "pick".toList⟩

/-- Concrete two-entry commit plan. -/
def exPlan : List CommitInfo := [exCommitA, exCommitB]

/-- Concrete operation record at the start of the apply loop. -/
def exState : RebranchState :=
  ⟨"feature".toList, "main".toList, "rebranch-temp-1".toList, exPlan, 0, "picking".toList⟩

/-- Concrete record paused on a conflict at entry 1. -/
def exConflictState : RebranchState :=
  {exState with CurrentCommitIdx := 1, Stage := "conflicts".toList}

/-- Oracle on which every external operation succeeds. -/
def exOracle : Oracle where
  validRepo := true
  foreignOp := none
  clean := true
  branchExists := fun _ => true
  currentBranch := some ("feature".toList)
  commitsBetween := fun _ _ => exPlan
  edit := id
  editOk := true
  tempName := "rebranch-temp-1".toList
  createOk := fun _ => true
  checkoutOk := fun _ => true
  cherryPickOk := fun _ => true
  deleteOk := fun _ => true
  renameOk := fun _ _ => true
  saveOk := fun _ => true
  clearOk := true

/-- Oracle on which the cherry-pick of the second commit conflicts. -/
def exOracleConflict : Oracle :=
  {exOracle with cherryPickOk := fun sha => decide (sha ≠ "bbbbbbb1111111".toList)}

/-- Oracle whose repository fails the structural validity check. -/
def exOracleBadRepo : Oracle := {exOracle with validRepo := false}

/-- Oracle on which removing the state file fails. -/
def exOracleBadClear : Oracle := {exOracle with clearOk := false}

/-- Concrete git reference state. -/
def exGitSt : GitSt :=
  ⟨fun n => if n = "feature".toList then some 10
            else if n = "main".toList then some 5 else none,
   "feature".toList, 100⟩

/-- C10: clearing the persisted operation record is idempotent — when no
record file exists, `ClearState` returns no error and leaves the store
unchanged, whatever the outcome of a file removal would have been. -/
theorem clearState_idempotent (o : Oracle) (w : World) (h : w.record = none) :
    clearState o w = .ok w := by
  unfold clearState
  rw [if_pos (by rw [h]; rfl)]

/-- Witness for C10, on an oracle whose file removal would fail. -/
theorem clearState_idempotent_witness :
    clearState exOracleBadClear ⟨none⟩ = .ok ⟨none⟩ :=
  clearState_idempotent exOracleBadClear ⟨none⟩ rfl

/-- C9 counterexample: with a record present but the repository failing
the structural validity check, `start` fails with the invalid-repository
error, not the "already in progress" error the claim promises. -/
theorem start_already_in_progress_cex :
    (startRebranch ("main".toList) exOracleBadRepo ⟨some exState⟩).result
        = .error .invalidRepo
    ∧ (startRebranch ("main".toList) exOracleBadRepo ⟨some exState⟩).result
        ≠ .error .alreadyInProgress := by
  constructor
  · rfl
  · intro h
    cases h

/-- C9 amended: whenever a record exists, `start` fails before any branch
is created, checked out, deleted, or renamed, and before the record is
modified; the error is "already in progress" exactly when the repository
passes the validity check that precedes the record-existence check, and
the validity error otherwise. -/
theorem start_rejected_when_record_exists (base : GoStr) (o : Oracle) (w : World)
    (h : w.record.isSome = true) :
    startRebranch base o w
      = ⟨.error (if o.validRepo then .alreadyInProgress else .invalidRepo), w, []⟩ := by
  unfold startRebranch validateStart
  cases hvr : o.validRepo <;> simp [hvr, h]

/-- Witness for C9. -/
theorem start_rejected_when_record_exists_witness :
    startRebranch ("main".toList) exOracle ⟨some exState⟩
      = ⟨.error (if exOracle.validRepo then .alreadyInProgress else .invalidRepo),
         ⟨some exState⟩, []⟩ :=
  start_rejected_when_record_exists ("main".toList) exOracle ⟨some exState⟩ rfl

/-- C7: when a record exists and the continue-validator passes, the record
necessarily has stage `conflicts` and a clean working tree, and continue
resumes the apply loop on the record with the cursor incremented by
exactly one and the stage reset to `picking` — no check that the working
tree contains a commit for the failed entry is consulted anywhere. -/
theorem continueRebranch_spec (o : Oracle) (w : World) (r : RebranchState)
    (hrec : w.record = some r) (hval : validateContinue o w = none) :
    r.Stage = "conflicts".toList ∧ o.clean = true ∧
    continueRebranch o w
      = applyCherryPicks o w
          {r with CurrentCommitIdx := r.CurrentCommitIdx + 1, Stage := "picking".toList} := by
  have hval0 := hval
  simp only [validateContinue, hrec] at hval
  by_cases hvr : o.validRepo = true
  · rw [if_neg (fun hc => hc hvr)] at hval
    by_cases hst : r.Stage = "conflicts".toList
    · rw [if_neg (fun hc => hc hst)] at hval
      by_cases hcl : o.clean = true
      · refine ⟨hst, hcl, ?_⟩
        simp only [continueRebranch, hval0, hrec]
      · rw [if_pos hcl] at hval
        cases hval
    · rw [if_pos hst] at hval
      cases hval
  · rw [if_pos hvr] at hval
    cases hval

/-- Witness for C7, resuming from the concrete conflicted record. -/
theorem continueRebranch_spec_witness :
    exConflictState.Stage = "conflicts".toList ∧ exOracle.clean = true ∧
    continueRebranch exOracle ⟨some exConflictState⟩
      = applyCherryPicks exOracle ⟨some exConflictState⟩
          {exConflictState with
            CurrentCommitIdx := exConflictState.CurrentCommitIdx + 1,
            Stage := "picking".toList} :=
  continueRebranch_spec exOracle ⟨some exConflictState⟩ exConflictState rfl (by decide)

/-- C3 counterexample: the abort validator does impose a constraint beyond
the record's existence — with a record present but an invalid repository
it fails, and abort fails with it. -/
theorem validateAbort_beyond_existence_cex :
    (⟨some exState⟩ : World).record.isSome = true
    ∧ validateAbort exOracleBadRepo ⟨some exState⟩ ≠ none
    ∧ (abortRebranch exOracleBadRepo ⟨some exState⟩).result = .error .invalidRepo := by
  refine ⟨rfl, ?_, rfl⟩
  intro h
  cases h

/-- C3 amended: for a record in any stage, once the validator's only two
checks — repository validity and record existence — pass, abort checks
out the source branch, attempts to delete the temp branch (its outcome
does not affect success), and removes the record; and the abort validator
passes for every oracle and record whenever those two checks hold,
whatever the record's stage. -/
theorem abortRebranch_spec (o : Oracle) (w : World) (r : RebranchState)
    (hvr : o.validRepo = true) (hrec : w.record = some r)
    (hco : o.checkoutOk r.SourceBranch = true) (hclr : o.clearOk = true) :
    (abortRebranch o w).result = .ok ()
    ∧ (abortRebranch o w).world = ⟨none⟩
    ∧ Ev.git (.checkout r.SourceBranch) ∈ (abortRebranch o w).trace
    ∧ (o.deleteOk r.TempBranch = true →
        Ev.git (.deleteBranch r.TempBranch) ∈ (abortRebranch o w).trace)
    ∧ (∀ (o' : Oracle) (w' : World), o'.validRepo = true → w'.record.isSome = true →
        validateAbort o' w' = none) := by
  have hval : validateAbort o w = none := by
    unfold validateAbort
    rw [if_neg (fun hc => hc hvr), if_neg (by rw [hrec]; simp)]
  have hclear : clearState o w = .ok ⟨none⟩ := by
    unfold clearState
    rw [if_neg (by rw [hrec]; simp), if_pos hclr]
  have habort : abortRebranch o w
      = ⟨.ok (), ⟨none⟩,
         Ev.git (.checkout r.SourceBranch) ::
           (if o.deleteOk r.TempBranch then [Ev.git (.deleteBranch r.TempBranch)] else [])⟩ := by
    simp only [abortRebranch, hval, hrec, hclear]
    rw [if_neg (fun hc => hc hco)]
  refine ⟨by rw [habort], by rw [habort], by rw [habort]; exact List.mem_cons_self _ _, ?_, ?_⟩
  · intro hdel
    rw [habort]
    simp [hdel]
  · intro o' w' hvr' hrec'
    unfold validateAbort
    refine (if_neg (fun hc => hc hvr')).trans (if_neg ?_)
    intro hnone
    rw [Option.isNone_iff_eq_none] at hnone
    rw [hnone] at hrec'
    cases hrec'

/-- Witness for C3, aborting from the conflicted stage. -/
theorem abortRebranch_spec_witness :
    (abortRebranch exOracle ⟨some exConflictState⟩).result = .ok ()
    ∧ (abortRebranch exOracle ⟨some exConflictState⟩).world = ⟨none⟩
    ∧ Ev.git (.checkout exConflictState.SourceBranch)
        ∈ (abortRebranch exOracle ⟨some exConflictState⟩).trace
    ∧ (exOracle.deleteOk exConflictState.TempBranch = true →
        Ev.git (.deleteBranch exConflictState.TempBranch)
          ∈ (abortRebranch exOracle ⟨some exConflictState⟩).trace)
    ∧ (∀ (o' : Oracle) (w' : World), o'.validRepo = true → w'.record.isSome = true →
        validateAbort o' w' = none) :=
  abortRebranch_spec exOracle ⟨some exConflictState⟩ exConflictState rfl rfl rfl rfl

/-- C2: if every applicable entry between the cursor and index `i`
cherry-picks cleanly and persists, the entry at `i` is applicable, and its
external cherry-pick fails, then the apply loop persists the record with
cursor `i` and stage `conflicts` and surfaces the conflict error carrying
the failing commit's 7-character short id (the Go message also instructs
the caller to resolve and run `--continue`); if that persist fails, the
conflict error is not surfaced.  Every state it persists with stage
`conflicts` has its cursor at the failing entry. -/
theorem applyCherryPicks_conflict_spec (o : Oracle) (w : World) (st : RebranchState)
    (hstage : st.Stage = "picking".toList)
    (i : Nat) (hi0 : st.CurrentCommitIdx ≤ i) (hi : i < st.CommitsToApply.length)
    (happ : (st.CommitsToApply[i]).Action ≠ "drop".toList)
    (hfail : o.cherryPickOk (st.CommitsToApply[i]).SHA = false)
    (hpre : ∀ j, st.CurrentCommitIdx ≤ j → j < i → ∀ (hjl : j < st.CommitsToApply.length),
      (st.CommitsToApply[j]).Action ≠ "drop".toList →
        o.cherryPickOk (st.CommitsToApply[j]).SHA = true ∧
        o.saveOk {st with CurrentCommitIdx := j} = true) :
    (o.saveOk {st with CurrentCommitIdx := i, Stage := "conflicts".toList} = true →
      (applyCherryPicks o w st).result
          = .error (.conflict ((st.CommitsToApply[i]).SHA.take 7)) ∧
      (applyCherryPicks o w st).world
          = ⟨some {st with CurrentCommitIdx := i, Stage := "conflicts".toList}⟩ ∧
      (∀ s ∈ savedStates (applyCherryPicks o w st).trace, s.Stage = "conflicts".toList →
        s = {st with CurrentCommitIdx := i, Stage := "conflicts".toList})) ∧
    (o.saveOk {st with CurrentCommitIdx := i, Stage := "conflicts".toList} = false →
      (applyCherryPicks o w st).result = .error .conflictSaveFailed) := by
  have hlen : (st.CommitsToApply.drop st.CurrentCommitIdx).length
      = st.CommitsToApply.length - st.CurrentCommitIdx := List.length_drop _ _
  have hk : i - st.CurrentCommitIdx < (st.CommitsToApply.drop st.CurrentCommitIdx).length := by
    rw [hlen]
    omega
  have h1 : st.CurrentCommitIdx + (i - st.CurrentCommitIdx) = i := by omega
  have hget : (st.CommitsToApply.drop st.CurrentCommitIdx)[i - st.CurrentCommitIdx]
      = st.CommitsToApply[i] := by
    simp only [List.getElem_drop, h1]
  have hmain := applyGo_conflict o (st.CommitsToApply.drop st.CurrentCommitIdx)
    (i - st.CurrentCommitIdx) st.CurrentCommitIdx w st hstage hk
    (by rw [hget]; exact happ) (by rw [hget]; exact hfail)
    (fun j hj hjl hja => by
      have hb : st.CurrentCommitIdx + j < st.CommitsToApply.length := by
        rw [hlen] at hjl
        omega
      have hd : (st.CommitsToApply.drop st.CurrentCommitIdx)[j]
          = st.CommitsToApply[st.CurrentCommitIdx + j] := by
        simp only [List.getElem_drop]
      rw [hd] at hja
      rw [hd]
      exact hpre (st.CurrentCommitIdx + j) (by omega) (by omega) hb hja)
  rw [hget, h1] at hmain
  exact hmain

/-- Witness for C2: the second entry of the concrete plan conflicts. -/
theorem applyCherryPicks_conflict_spec_witness :
    (exOracleConflict.saveOk
        {exState with CurrentCommitIdx := 1, Stage := "conflicts".toList} = true →
      (applyCherryPicks exOracleConflict ⟨some exState⟩ exState).result
          = .error (.conflict (exCommitB.SHA.take 7)) ∧
      (applyCherryPicks exOracleConflict ⟨some exState⟩ exState).world
          = ⟨some {exState with CurrentCommitIdx := 1, Stage := "conflicts".toList}⟩ ∧
      (∀ s ∈ savedStates (applyCherryPicks exOracleConflict ⟨some exState⟩ exState).trace,
        s.Stage = "conflicts".toList →
        s = {exState with CurrentCommitIdx := 1, Stage := "conflicts".toList})) ∧
    (exOracleConflict.saveOk
        {exState with CurrentCommitIdx := 1, Stage := "conflicts".toList} = false →
      (applyCherryPicks exOracleConflict ⟨some exState⟩ exState).result
          = .error .conflictSaveFailed) :=
  applyCherryPicks_conflict_spec exOracleConflict ⟨some exState⟩ exState rfl 1
    (by decide) (by decide) (by decide) (by decide)
    (fun j _ hj1 hjl hja => by
      have hj0 : j = 0 := by omega
      subst hj0
      exact ⟨(by decide : exOracleConflict.cherryPickOk exCommitA.SHA = true), rfl⟩)

/-- C6 counterexample: on the all-success oracle, the record persisted
right after applying entry 0 carries cursor 0 — the just-processed index,
not the next unprocessed entry 1 — and re-running the apply loop from
that persisted record cherry-picks entry 0 again. -/
theorem cursor_next_unprocessed_cex :
    (savedCursors (applyCherryPicks exOracle ⟨some exState⟩ exState).trace).head? = some 0
    ∧ (savedCursors (applyCherryPicks exOracle ⟨some exState⟩ exState).trace).head? ≠ some 1
    ∧ Ev.save exState ∈ (applyCherryPicks exOracle ⟨some exState⟩ exState).trace
    ∧ Ev.git (.cherryPick exCommitA.SHA)
        ∈ (applyCherryPicks exOracle ⟨some exState⟩ exState).trace := by
  decide

/-- C6 amended: the apply loop persists cursor values that are
monotonically non-decreasing and never below the starting index; after a
successful application of the entry at the cursor, the persisted cursor
equals that just-processed index (not the next unprocessed one); and a
resume through `continue` re-enters the loop past the recorded cursor, so
it never replays the recorded entry or any earlier one. -/
theorem cursor_semantics (o : Oracle) (w : World) (st : RebranchState) :
    (List.Sorted (· ≤ ·) (savedCursors (applyCherryPicks o w st).trace)
      ∧ ∀ x ∈ savedCursors (applyCherryPicks o w st).trace, st.CurrentCommitIdx ≤ x)
    ∧ (∀ (hlt : st.CurrentCommitIdx < st.CommitsToApply.length),
        (st.CommitsToApply[st.CurrentCommitIdx]).Action ≠ "drop".toList →
        o.cherryPickOk (st.CommitsToApply[st.CurrentCommitIdx]).SHA = true →
        o.saveOk {st with CurrentCommitIdx := st.CurrentCommitIdx} = true →
        ∃ tail, (applyCherryPicks o w st).trace
          = .git (.cherryPick (st.CommitsToApply[st.CurrentCommitIdx]).SHA)
              :: .save {st with CurrentCommitIdx := st.CurrentCommitIdx} :: tail)
    ∧ (∀ r, w.record = some r → validateContinue o w = none →
        ∀ sha, Ev.git (.cherryPick sha) ∈ (continueRebranch o w).trace →
          ∃ j, ∃ (hj : j < r.CommitsToApply.length),
            r.CurrentCommitIdx + 1 ≤ j ∧ (r.CommitsToApply[j]).SHA = sha
              ∧ (r.CommitsToApply[j]).Action ≠ "drop".toList) := by
  refine ⟨applyGo_savedCursors o _ st.CurrentCommitIdx w st (Nat.le_refl _), ?_, ?_⟩
  · intro hlt happ hcp hsv
    have heq : applyCherryPicks o w st
        = applyGo o w st
            (st.CommitsToApply[st.CurrentCommitIdx] ::
              st.CommitsToApply.drop (st.CurrentCommitIdx + 1)) st.CurrentCommitIdx := by
      unfold applyCherryPicks
      rw [List.drop_eq_getElem_cons hlt]
    rw [heq]
    refine ⟨(applyGo o ⟨some {st with CurrentCommitIdx := st.CurrentCommitIdx}⟩
      {st with CurrentCommitIdx := st.CurrentCommitIdx}
      (st.CommitsToApply.drop (st.CurrentCommitIdx + 1)) (st.CurrentCommitIdx + 1)).trace, ?_⟩
    simp only [applyGo]
    rw [if_neg happ, if_pos hcp, if_pos hsv]
  · intro r hrec hval sha hmem
    simp only [continueRebranch, hval, hrec] at hmem
    have hpicks := applyGo_picks o
      (r.CommitsToApply.drop (r.CurrentCommitIdx + 1)) (r.CurrentCommitIdx + 1) w
      {r with CurrentCommitIdx := r.CurrentCommitIdx + 1, Stage := "picking".toList} sha hmem
    obtain ⟨j', hj', hsha, hact⟩ := hpicks
    have hb : r.CurrentCommitIdx + 1 + j' < r.CommitsToApply.length := by
      rw [List.length_drop] at hj'
      omega
    have hd : (r.CommitsToApply.drop (r.CurrentCommitIdx + 1))[j']
        = r.CommitsToApply[r.CurrentCommitIdx + 1 + j'] := by
      simp only [List.getElem_drop]
    rw [hd] at hsha hact
    exact ⟨r.CurrentCommitIdx + 1 + j', hb, by omega, hsha, hact⟩

/-- Witness for C6 at the concrete oracle, record, and plan. -/
theorem cursor_semantics_witness :
    (List.Sorted (· ≤ ·)
        (savedCursors (applyCherryPicks exOracle ⟨some exConflictState⟩ exState).trace)
      ∧ ∀ x ∈ savedCursors (applyCherryPicks exOracle ⟨some exConflictState⟩ exState).trace,
          exState.CurrentCommitIdx ≤ x)
    ∧ (∀ (hlt : exState.CurrentCommitIdx < exState.CommitsToApply.length),
        (exState.CommitsToApply[exState.CurrentCommitIdx]).Action ≠ "drop".toList →
        exOracle.cherryPickOk (exState.CommitsToApply[exState.CurrentCommitIdx]).SHA = true →
        exOracle.saveOk {exState with CurrentCommitIdx := exState.CurrentCommitIdx} = true →
        ∃ tail, (applyCherryPicks exOracle ⟨some exConflictState⟩ exState).trace
          = .git (.cherryPick (exState.CommitsToApply[exState.CurrentCommitIdx]).SHA)
              :: .save {exState with CurrentCommitIdx := exState.CurrentCommitIdx} :: tail)
    ∧ (∀ r, (⟨some exConflictState⟩ : World).record = some r →
        validateContinue exOracle ⟨some exConflictState⟩ = none →
        ∀ sha, Ev.git (.cherryPick sha)
            ∈ (continueRebranch exOracle ⟨some exConflictState⟩).trace →
          ∃ j, ∃ (hj : j < r.CommitsToApply.length),
            r.CurrentCommitIdx + 1 ≤ j ∧ (r.CommitsToApply[j]).SHA = sha
              ∧ (r.CommitsToApply[j]).Action ≠ "drop".toList) :=
  cursor_semantics exOracle ⟨some exConflictState⟩ exState

/-- Commit entry whose message spans two lines. -/
def exNlCommit : CommitInfo := ⟨"ccccccc2222222".toList, "Title\nBody".toList, "pick".toList⟩

/-- C5 counterexample: with a commit whose (code-produced) summary spans
two lines, rendering and re-parsing does not reproduce the sequence — the
second line of the message fails to parse, so the unedited roundtrip is
already rejected. -/
theorem render_parse_roundtrip_cex :
    parseInteractiveFile (createInteractiveFile [exNlCommit]) [exNlCommit]
      ≠ .ok ([exNlCommit].map (fun c => ⟨c.SHA, c.Message, "pick".toList⟩))
    ∧ parseInteractiveFile (createInteractiveFile [exNlCommit]) [exNlCommit]
      = .error (.invalidLine 9 ("Body".toList)) := by
  decide

/-- Witness for C5 on the concrete two-commit plan. -/
theorem render_parse_roundtrip_witness :
    parseInteractiveFile (createInteractiveFile exPlan) exPlan
      = .ok (exPlan.map (fun c => ⟨c.SHA, c.Message, "pick".toList⟩)) :=
  render_parse_roundtrip exPlan (by decide) (by decide) (by decide) (by decide)

/-- C4 counterexample: on the merge-bearing repository (well-formed) with
base 1 and head 5 the resolver returns the entries for commits 3, 4, 2, 5 in
that order — commit 2, an ancestor of commit 3 (and created before it), is
listed after it, so the output is not in ascending creation order and the
claimed oldest-first ordering fails.  The expected oldest-first listing of
the same commits differs from the actual output. -/
theorem resolver_oldest_first_cex :
    exMergeRepo.Wf
    ∧ (getCommitsBetween exMergeRepo 1 5).map CommitInfo.SHA
        = [exMergeRepo.shas 3, exMergeRepo.shas 4, exMergeRepo.shas 2, exMergeRepo.shas 5]
    ∧ ancestorB exMergeRepo 2 3 = true
    ∧ getCommitsBetween exMergeRepo 1 5
        ≠ ((List.range 6).filter
            (fun c => ancestorB exMergeRepo c 5 && !(ancestorB exMergeRepo c 1))).map
              (mkPick exMergeRepo) := by
  decide

/-- C4 amended: over a well-formed commit DAG the resolver returns exactly
the commits reachable from `head` that are not ancestors of `base` (each
candidate individually tested for ancestry of `base`, so commits merged
into `base` along another path are excluded, and when `base = head` the
result is empty); the order is the reverse of go-git's log traversal, a DFS
pre-order from `head` visiting first parents first — ascending creation
order on linear histories but not in general; the traversal visits exactly
the commits reachable from `head`, and `ancestorB` agrees with the
inductive ancestry relation. -/
theorem getCommitsBetween_resolver_correct (r : Repo) (hwf : r.Wf) (base head : Nat) :
    getCommitsBetween r base head
        = (if base = head then []
           else ((logList r head).filter
               (fun c => !(ancestorB r c base))).reverse.map (mkPick r))
      ∧ (∀ c, c ∈ logList r head ↔ Reaches r c head)
      ∧ (∀ a d : Nat, ancestorB r a d = true ↔ Reaches r a d)
      ∧ (∀ info, info ∈ getCommitsBetween r base head ↔
          ∃ c, Reaches r c head ∧ ¬ Reaches r c base ∧ info = mkPick r c) := by
  refine ⟨getCommitsBetween_eq r base head, logList_mem r hwf head,
    fun a d => ancestorB_iff_reaches r hwf a d, ?_⟩
  intro info
  rw [getCommitsBetween_eq]
  by_cases hbh : base = head
  · rw [if_pos hbh]
    subst hbh
    simp only [List.not_mem_nil, false_iff]
    rintro ⟨c, h1, h2, rfl⟩
    exact h2 h1
  · rw [if_neg hbh]
    constructor
    · intro hmem
      obtain ⟨c, hc, rfl⟩ := List.mem_map.mp hmem
      rw [List.mem_reverse, List.mem_filter] at hc
      obtain ⟨hcl, hcb⟩ := hc
      refine ⟨c, (logList_mem r hwf head c).mp hcl, ?_, rfl⟩
      intro hr
      rw [← ancestorB_iff_reaches r hwf c base] at hr
      rw [hr] at hcb
      cases hcb
    · rintro ⟨c, h1, h2, rfl⟩
      refine List.mem_map.mpr ⟨c, ?_, rfl⟩
      rw [List.mem_reverse, List.mem_filter]
      have hfalse : ancestorB r c base = false := by
        cases hb : ancestorB r c base
        · rfl
        · exact absurd ((ancestorB_iff_reaches r hwf c base).mp hb) h2
      refine ⟨(logList_mem r hwf head c).mpr h1, ?_⟩
      rw [hfalse]
      rfl

/-- Witness for C4 on the concrete merge-bearing repository. -/
theorem getCommitsBetween_resolver_correct_witness :
    exMergeRepo.Wf
    ∧ (getCommitsBetween exMergeRepo 1 5
          = (if 1 = 5 then []
             else ((logList exMergeRepo 5).filter
                 (fun c => !(ancestorB exMergeRepo c 1))).reverse.map (mkPick exMergeRepo))
        ∧ (∀ c, c ∈ logList exMergeRepo 5 ↔ Reaches exMergeRepo c 5)
        ∧ (∀ a d : Nat, ancestorB exMergeRepo a d = true ↔ Reaches exMergeRepo a d)
        ∧ (∀ info, info ∈ getCommitsBetween exMergeRepo 1 5 ↔
            ∃ c, Reaches exMergeRepo c 5 ∧ ¬ Reaches exMergeRepo c 1
              ∧ info = mkPick exMergeRepo c)) :=
  ⟨by decide, getCommitsBetween_resolver_correct exMergeRepo (by decide) 1 5⟩

/-- C8 counterexample: the single entry returned for the two-commit
repository carries the whole trimmed message `"Title\nBody"` as its
summary, not the first line `"Title"` of the original message. -/
theorem summary_first_line_cex :
    (getCommitsBetween exRepo 0 1).map CommitInfo.Message = ["Title\nBody".toList]
    ∧ ¬ (∀ info ∈ getCommitsBetween exRepo 0 1,
          info.Message = firstLine (exRepo.msgs 1)) := by
  decide

/-- C8 amended: every entry the resolver returns carries, as its summary,
the entire original commit message trimmed of surrounding whitespace —
which coincides with the message's first line exactly when the trimmed
message is single-line. -/
theorem summary_is_trimmed_message (r : Repo) (base head : Nat) (info : CommitInfo)
    (h : info ∈ getCommitsBetween r base head) :
    ∃ c, info = mkPick r c ∧ info.Message = goTrim (r.msgs c)
      ∧ ((∀ ch ∈ info.Message, ch ≠ '\n') → firstLine info.Message = info.Message) := by
  rw [getCommitsBetween_eq] at h
  by_cases hbh : base = head
  · rw [if_pos hbh] at h
    exact absurd h (List.not_mem_nil info)
  · rw [if_neg hbh] at h
    obtain ⟨c, _, rfl⟩ := List.mem_map.mp h
    exact ⟨c, rfl, rfl, fun hnl => firstLine_of_no_newline hnl⟩

theorem allPicks_frame {tr : List GitEff}
    (h : ∀ e ∈ tr, ∃ sha, e = GitEff.cherryPick sha)
    (g : GitSt) (src : GoStr) (hsrc : src ≠ g.head) :
    (∀ n, GitEff.deleteBranch n ∉ tr) ∧ (∀ a b, GitEff.renameBranch a b ∉ tr) ∧
    (interp g tr).branches src = g.branches src := by
  refine ⟨?_, ?_, (interp_picks_preserve tr g src h hsrc).1⟩
  · intro n hn
    obtain ⟨sha, he⟩ := h _ hn
    cases he
  · intro a b hn
    obtain ⟨sha, he⟩ := h _ hn
    cases he

theorem continueRebranch_all_picks (o : Oracle) (w : World) :
    ∀ e ∈ gitTrace (continueRebranch o w).trace, ∃ sha, e = GitEff.cherryPick sha := by
  intro e he
  unfold continueRebranch at he
  cases hv : validateContinue o w with
  | some err =>
    rw [hv] at he
    simp at he
  | none =>
    rw [hv] at he
    cases hr : w.record with
    | none =>
      rw [hr] at he
      simp at he
    | some r =>
      rw [hr] at he
      exact applyGo_gitTrace o _ _ _ _ e he

theorem startRebranch_trace_cases (base : GoStr) (o : Oracle) (w : World) :
    (startRebranch base o w).trace = []
    ∨ (startRebranch base o w).trace = [.git (.createBranch o.tempName base)]
    ∨ (startRebranch base o w).trace
        = [.git (.createBranch o.tempName base), .git (.checkout o.tempName)]
    ∨ ∃ st tail, (∀ e ∈ gitTrace tail, ∃ sha, e = GitEff.cherryPick sha) ∧
        (startRebranch base o w).trace
          = .git (.createBranch o.tempName base) :: .git (.checkout o.tempName) ::
              .save st :: tail := by
  unfold startRebranch
  split
  · exact Or.inl rfl
  · split
    · exact Or.inl rfl
    · split
      · exact Or.inl rfl
      · split
        · exact Or.inl rfl
        · split
          · exact Or.inl rfl
          · split
            · exact Or.inl rfl
            · split
              · exact Or.inr (Or.inl rfl)
              · split
                · exact Or.inr (Or.inr (Or.inl rfl))
                · exact Or.inr (Or.inr (Or.inr ⟨_, _, applyGo_gitTrace o _ _ _ _, rfl⟩))

/-- C1: start, the apply loop, and continue never issue a branch deletion
or rename at all; their reference-level effect leaves the source branch's
tip untouched (start creates and checks out only the fresh temp branch —
assumed distinct from the source — and cherry-picks advance only the
checked-out branch, which the loop and continue run on a working tree
positioned off the source branch); only finish, and only after its
validator passes — which forces stage `done` — deletes the source branch
and renames the temp branch onto its name, then removes the record. -/
theorem sourceBranch_frame :
    (∀ (base : GoStr) (o : Oracle) (w : World) (g : GitSt) (src : GoStr),
      o.currentBranch = some src → o.tempName ≠ src →
      (∀ n, GitEff.deleteBranch n ∉ gitTrace (startRebranch base o w).trace)
      ∧ (∀ a b, GitEff.renameBranch a b ∉ gitTrace (startRebranch base o w).trace)
      ∧ (interp g (gitTrace (startRebranch base o w).trace)).branches src = g.branches src)
    ∧ (∀ (o : Oracle) (w : World) (st : RebranchState) (g : GitSt) (src : GoStr),
      src ≠ g.head →
      (∀ n, GitEff.deleteBranch n ∉ gitTrace (applyCherryPicks o w st).trace)
      ∧ (∀ a b, GitEff.renameBranch a b ∉ gitTrace (applyCherryPicks o w st).trace)
      ∧ (interp g (gitTrace (applyCherryPicks o w st).trace)).branches src = g.branches src)
    ∧ (∀ (o : Oracle) (w : World) (g : GitSt) (src : GoStr),
      src ≠ g.head →
      (∀ n, GitEff.deleteBranch n ∉ gitTrace (continueRebranch o w).trace)
      ∧ (∀ a b, GitEff.renameBranch a b ∉ gitTrace (continueRebranch o w).trace)
      ∧ (interp g (gitTrace (continueRebranch o w).trace)).branches src = g.branches src)
    ∧ (∀ (o : Oracle) (w : World) (r : RebranchState),
      w.record = some r → validateFinish o w = none →
      o.deleteOk r.SourceBranch = true → o.renameOk r.TempBranch r.SourceBranch = true →
      o.clearOk = true →
      r.Stage = "done".toList
      ∧ gitTrace (finishRebranch o w).trace
          = [GitEff.deleteBranch r.SourceBranch,
             GitEff.renameBranch r.TempBranch r.SourceBranch]
      ∧ (finishRebranch o w).result = .ok ()
      ∧ (finishRebranch o w).world = ⟨none⟩) := by
  refine ⟨?_, ?_, ?_, ?_⟩
  · intro base o w g src _ htemp
    rcases startRebranch_trace_cases base o w with h | h | h | ⟨st, tail, hall, h⟩
    · rw [h]
      exact ⟨fun n hn => by simp [gitTrace] at hn,
        fun a b hn => by simp [gitTrace] at hn, rfl⟩
    · rw [h]
      refine ⟨fun n hn => ?_, fun a b hn => ?_, ?_⟩
      · simp only [gitTrace_git_cons, gitTrace_nil, List.mem_singleton] at hn
        cases hn
      · simp only [gitTrace_git_cons, gitTrace_nil, List.mem_singleton] at hn
        cases hn
      · show (GitEff.apply g (.createBranch o.tempName base)).branches src = g.branches src
        simp only [GitEff.apply]
        rw [if_neg (fun hh => htemp hh.symm)]
    · rw [h]
      refine ⟨fun n hn => ?_, fun a b hn => ?_, ?_⟩
      · simp only [gitTrace_git_cons, gitTrace_nil, List.mem_cons, List.mem_singleton] at hn
        rcases hn with hn | hn | hn <;> cases hn
      · simp only [gitTrace_git_cons, gitTrace_nil, List.mem_cons, List.mem_singleton] at hn
        rcases hn with hn | hn | hn <;> cases hn
      · show (GitEff.apply (GitEff.apply g (.createBranch o.tempName base))
            (.checkout o.tempName)).branches src = g.branches src
        simp only [GitEff.apply]
        rw [if_neg (fun hh => htemp hh.symm)]
    · rw [h]
      simp only [gitTrace_git_cons, gitTrace_save_cons]
      refine ⟨fun n hn => ?_, fun a b hn => ?_, ?_⟩
      · rcases List.mem_cons.mp hn with he | hn
        · cases he
        rcases List.mem_cons.mp hn with he | hn
        · cases he
        obtain ⟨sha, he⟩ := hall _ hn
        cases he
      · rcases List.mem_cons.mp hn with he | hn
        · cases he
        rcases List.mem_cons.mp hn with he | hn
        · cases he
        obtain ⟨sha, he⟩ := hall _ hn
        cases he
      · have hstep : interp g
            (GitEff.createBranch o.tempName base :: GitEff.checkout o.tempName :: gitTrace tail)
            = interp (GitEff.apply (GitEff.apply g (.createBranch o.tempName base))
                (.checkout o.tempName)) (gitTrace tail) := rfl
        rw [hstep]
        have hpres := interp_picks_preserve (gitTrace tail)
          (GitEff.apply (GitEff.apply g (.createBranch o.tempName base)) (.checkout o.tempName))
          src hall (fun hh => htemp hh.symm)
        rw [hpres.1]
        show (GitEff.apply (GitEff.apply g (.createBranch o.tempName base))
            (.checkout o.tempName)).branches src = g.branches src
        simp only [GitEff.apply]
        rw [if_neg (fun hh => htemp hh.symm)]
  · intro o w st g src hsrc
    exact allPicks_frame (applyGo_gitTrace o _ _ _ _) g src hsrc
  · intro o w g src hsrc
    exact allPicks_frame (continueRebranch_all_picks o w) g src hsrc
  · intro o w r hrec hval hdel hren hclr
    have hval0 := hval
    simp only [validateFinish, hrec] at hval
    by_cases hvr : o.validRepo = true
    · rw [if_neg (fun hc => hc hvr)] at hval
      by_cases hst : r.Stage = "done".toList
      · have hclear : clearState o w = .ok ⟨none⟩ := by
          unfold clearState
          rw [if_neg (by rw [hrec]; simp), if_pos hclr]
        have hfin : finishRebranch o w
            = ⟨.ok (), ⟨none⟩,
               [Ev.git (.deleteBranch r.SourceBranch),
                Ev.git (.renameBranch r.TempBranch r.SourceBranch)]⟩ := by
          simp only [finishRebranch, hval0, hrec, hclear]
          rw [if_neg (fun hc => hc hdel), if_neg (fun hc => hc hren)]
        exact ⟨hst, by rw [hfin]; rfl, by rw [hfin], by rw [hfin]⟩
      · rw [if_pos (fun hc => hst hc)] at hval
        cases hval
    · rw [if_pos hvr] at hval
      cases hval

/-- Oracle positioned on the temp branch, ready to finish. -/
def exOracleFinish : Oracle := {exOracle with currentBranch := some ("rebranch-temp-1".toList)}

/-- Concrete record whose apply loop completed. -/
def exDoneState : RebranchState := {exState with CurrentCommitIdx := 1, Stage := "done".toList}

/-- Git state checked out on the temp branch. -/
def exGitStTemp : GitSt := {exGitSt with head := "rebranch-temp-1".toList}

/-- Witness for C1: all four conjuncts at concrete inputs. -/
theorem sourceBranch_frame_witness :
    ((∀ n, GitEff.deleteBranch n
        ∉ gitTrace (startRebranch ("main".toList) exOracle ⟨none⟩).trace)
      ∧ (∀ a b, GitEff.renameBranch a b
          ∉ gitTrace (startRebranch ("main".toList) exOracle ⟨none⟩).trace)
      ∧ (interp exGitSt
          (gitTrace (startRebranch ("main".toList) exOracle ⟨none⟩).trace)).branches
            ("feature".toList)
        = exGitSt.branches ("feature".toList))
    ∧ ((∀ n, GitEff.deleteBranch n
          ∉ gitTrace (applyCherryPicks exOracle ⟨some exState⟩ exState).trace)
      ∧ (∀ a b, GitEff.renameBranch a b
          ∉ gitTrace (applyCherryPicks exOracle ⟨some exState⟩ exState).trace)
      ∧ (interp exGitStTemp
          (gitTrace (applyCherryPicks exOracle ⟨some exState⟩ exState).trace)).branches
            ("feature".toList)
        = exGitStTemp.branches ("feature".toList))
    ∧ ((∀ n, GitEff.deleteBranch n
          ∉ gitTrace (continueRebranch exOracle ⟨some exConflictState⟩).trace)
      ∧ (∀ a b, GitEff.renameBranch a b
          ∉ gitTrace (continueRebranch exOracle ⟨some exConflictState⟩).trace)
      ∧ (interp exGitStTemp
          (gitTrace (continueRebranch exOracle ⟨some exConflictState⟩).trace)).branches
            ("feature".toList)
        = exGitStTemp.branches ("feature".toList))
    ∧ (exDoneState.Stage = "done".toList
      ∧ gitTrace (finishRebranch exOracleFinish ⟨some exDoneState⟩).trace
          = [GitEff.deleteBranch exDoneState.SourceBranch,
             GitEff.renameBranch exDoneState.TempBranch exDoneState.SourceBranch]
      ∧ (finishRebranch exOracleFinish ⟨some exDoneState⟩).result = .ok ()
      ∧ (finishRebranch exOracleFinish ⟨some exDoneState⟩).world = ⟨none⟩) :=
  ⟨sourceBranch_frame.1 ("main".toList) exOracle ⟨none⟩ exGitSt ("feature".toList)
      rfl (by decide),
   sourceBranch_frame.2.1 exOracle ⟨some exState⟩ exState exGitStTemp ("feature".toList)
      (by decide),
   sourceBranch_frame.2.2.1 exOracle ⟨some exConflictState⟩ exGitStTemp ("feature".toList)
      (by decide),
   sourceBranch_frame.2.2.2 exOracleFinish ⟨some exDoneState⟩ exDoneState rfl (by decide)
      rfl rfl rfl⟩

/-- Witness for C8 at the concrete repository. -/
theorem summary_is_trimmed_message_witness :
    ∃ c, mkPick exRepo 1 = mkPick exRepo c
      ∧ (mkPick exRepo 1).Message = goTrim (exRepo.msgs c)
      ∧ ((∀ ch ∈ (mkPick exRepo 1).Message, ch ≠ '\n') →
          firstLine (mkPick exRepo 1).Message = (mkPick exRepo 1).Message) :=
  summary_is_trimmed_message exRepo 0 1 (mkPick exRepo 1) (by decide)

end Rebranch
